import Mathlib

/-!
# Verification of the Poloniex ingestion bundle

A shallow embedding of `zipline_poloniex/bundle.py` and proofs about it.

Modelling conventions:
* Instants are seconds since the Unix epoch (`Nat`); pandas timestamps at
  day granularity are instants.
* Prices (`rate`) and amounts (`total`) are rationals (`ℚ`); the floats of
  the original are modelled exactly, no rounding is involved in any of the
  aggregations (only `max`, `min`, `first`, `last`, `+`).
* A pandas `DataFrame` of trades is a `List Trade` ordered as the rows are.
* Python's `dict` is an association list with insertion order preserved and
  value update in place (CPython ≥ 3.7 semantics).
* The generator `prepare_data` is modelled as a state-threading fold whose
  state also records, as pure instrumentation, the fetch events issued and
  the `(sid, day, frame)` triples yielded.
-/

namespace ZiplinePoloniex

/-! ## Trades and candle sticks (`make_candle_stick`) -/

/-- One executed trade: `time` is the timestamp in seconds since the epoch,
`rate` the price, `total` the traded volume of the trade. -/
structure Trade where
  time : Nat
  rate : ℚ
  total : ℚ
  deriving DecidableEq, Repr

/-- The 1-minute resampling bucket a trade falls into: the timestamp
truncated to minute resolution (`freq = '1T'`). -/
def tradeBucket (t : Trade) : Nat := t.time / 60

/-- The trades of one resampling group, in input (row) order. -/
def bucketTrades (trades : List Trade) (b : Nat) : List Trade :=
  trades.filter (fun t => tradeBucket t = b)

/-- Smallest bucket of a non-empty trade list `t :: ts`. -/
def bucketLo (t : Trade) (ts : List Trade) : Nat :=
  ts.foldl (fun a u => Nat.min a (tradeBucket u)) (tradeBucket t)

/-- Largest bucket of a non-empty trade list `t :: ts`. -/
def bucketHi (t : Trade) (ts : List Trade) : Nat :=
  ts.foldl (fun a u => Nat.max a (tradeBucket u)) (tradeBucket t)

/-- The buckets a pandas `resample('1T')` produces: every minute from the
first trade's bucket to the last trade's bucket, empty buckets included;
no buckets at all for an empty frame. -/
def bucketRange : List Trade → List Nat
  | [] => []
  | t :: ts => (List.range (bucketHi t ts + 1 - bucketLo t ts)).map (fun i => bucketLo t ts + i)

/-- `trades['total'].resample(freq).sum()`: per-bucket sum of `total`;
`none` (NaN) for a bucket with no trades. -/
def seriesSum (trades : List Trade) (b : Nat) : Option ℚ :=
  match bucketTrades trades b with
  | [] => none
  | l => some ((l.map Trade.total).sum)

/-- `trades['rate'].resample(freq).max()`. -/
def seriesHigh (trades : List Trade) (b : Nat) : Option ℚ :=
  match bucketTrades trades b with
  | [] => none
  | t :: ts => some (ts.foldl (fun a u => max a u.rate) t.rate)

/-- `trades['rate'].resample(freq).min()`. -/
def seriesLow (trades : List Trade) (b : Nat) : Option ℚ :=
  match bucketTrades trades b with
  | [] => none
  | t :: ts => some (ts.foldl (fun a u => min a u.rate) t.rate)

/-- `trades['rate'].resample(freq).first()`: rate of the bucket's first row. -/
def seriesOpen (trades : List Trade) (b : Nat) : Option ℚ :=
  (bucketTrades trades b).head?.map Trade.rate

/-- `trades['rate'].resample(freq).last()`: rate of the bucket's last row. -/
def seriesClose (trades : List Trade) (b : Nat) : Option ℚ :=
  (bucketTrades trades b).getLast?.map Trade.rate

/-- `volume.fillna(0)`. -/
def fillna (x : Option ℚ) : ℚ := x.getD 0

/-- One row of the candle-stick frame.  `open_` names the Python column
`open` (a Lean keyword).  Price columns are `Option` valued: `none` is a
pandas NaN for a bucket without trades; `volume` has been filled to `0`. -/
structure CandleRow where
  bucket : Nat
  open_ : Option ℚ
  high : Option ℚ
  low : Option ℚ
  close : Option ℚ
  volume : ℚ
  deriving DecidableEq, Repr

/-- `make_candle_stick` of `bundle.py`: resample trades into 1-minute
OHLCV bars, one row per bucket from the first to the last occupied minute. -/
def make_candle_stick (trades : List Trade) : List CandleRow :=
  (bucketRange trades).map (fun b =>
    { bucket := b
      open_ := seriesOpen trades b
      high := seriesHigh trades b
      low := seriesLow trades b
      close := seriesClose trades b
      volume := fillna (seriesSum trades b) })

/-! ## Cache keys (`get_key`) and date formatting -/

/-- A calendar date, as carried by a pandas day-granularity `Timestamp`. -/
structure Date where
  year : Nat
  month : Nat
  day : Nat
  deriving DecidableEq, Repr

/-- A date a pandas `Timestamp` can hold (pandas timestamps span the years
1677–2262, so the year always prints as exactly four digits). -/
def Date.Valid (d : Date) : Prop :=
  1 ≤ d.month ∧ d.month ≤ 12 ∧ 1 ≤ d.day ∧ d.day ≤ 31 ∧ d.year < 10000

instance (d : Date) : Decidable d.Valid := by unfold Date.Valid; infer_instance

/-- Little-endian decimal digits of `n`, with explicit structural fuel so
that the kernel can evaluate it (`fuel ≥ n` suffices). -/
def digitsRevAux : Nat → Nat → List Nat
  | _, 0 => []
  | 0, _ + 1 => []
  | fuel + 1, n + 1 => ((n + 1) % 10) :: digitsRevAux fuel ((n + 1) / 10)

/-- The characters of the usual decimal notation of `n` (most significant
first; empty for `n = 0`). -/
def digitsChars (n : Nat) : List Char :=
  ((digitsRevAux n n).map Nat.digitChar).reverse

/-- Zero-pad a character list on the left to width `w`. -/
def padChars (w : Nat) (l : List Char) : List Char :=
  List.replicate (w - l.length) '0' ++ l

/-- The characters of Python's `"{}".format(n)` for a natural number:
decimal notation, and `"0"` for zero. -/
def reprChars (n : Nat) : List Char := padChars 1 (digitsChars n)

/-- `day.strftime("%Y-%m-%d")`: the year zero-padded to four digits, month
and day zero-padded to two, separated by dashes. -/
def strftimeYmd (d : Date) : List Char :=
  padChars 4 (digitsChars d.year) ++
    '-' :: (padChars 2 (digitsChars d.month) ++ '-' :: padChars 2 (digitsChars d.day))

/-- `get_key` of `prepare_data`: `"{}_{}".format(sid, day.strftime("%Y-%m-%d"))`. -/
def get_key (sid : Nat) (d : Date) : String :=
  String.mk (reprChars sid ++ '_' :: strftimeYmd d)

/-- The year-of-era (0–399) of a day-of-era (0–146096), by Howard
Hinnant's formula. -/
def yoeOf (doe : Nat) : Nat := (doe - doe / 1460 + doe / 36524 - doe / 146096) / 365

/-- The day-of-era on which year-of-era `y` starts (March-anchored). -/
def ysOf (y : Nat) : Nat := 365 * y + y / 4 - y / 100

/-- Convert a count of days since 1970-01-01 to the civil (Gregorian) date,
as pandas does for a day-granularity timestamp (Howard Hinnant's
`civil_from_days`, specialised to non-negative day counts). -/
def civilFromDays (n : Nat) : Date :=
  let z := n + 719468
  let era := z / 146097
  let doe := z % 146097
  let yoe := yoeOf doe
  let y := yoe + era * 400
  let doy := doe - ysOf yoe
  let mp := (5 * doy + 2) / 153
  let d := doy - (153 * mp + 2) / 5 + 1
  let m := if mp < 10 then mp + 3 else mp - 9
  { year := if m ≤ 2 then y + 1 else y, month := m, day := d }

/-- The inverse conversion (Hinnant's `days_from_civil`), used to verify
that `civilFromDays` never maps two day counts to the same date. -/
def daysFromCivil (d : Date) : Nat :=
  let y := if d.month ≤ 2 then d.year - 1 else d.year
  let era := y / 400
  let yoe := y % 400
  let mp := if 2 < d.month then d.month - 3 else d.month + 9
  let doy := (153 * mp + 2) / 5 + d.day - 1
  let doe := 365 * yoe + yoe / 4 - yoe / 100 + doy
  era * 146097 + doe - 719468

/-! ## Symbol resolution (`write_assets`) -/

/-- The currency-metadata source (`get_currencies()`): a data frame indexed
by currency symbol with a `name` column, one row per currency, in the
source's own row order. -/
abbrev Metadata := List (String × String)

/-- Split a character list at every occurrence of `sep` (Python's
`str.split`). -/
def splitOnChar (sep : Char) : List Char → List (List Char)
  | [] => [[]]
  | c :: cs =>
    match splitOnChar sep cs with
    | [] => [[c]]
    | h :: t => if c = sep then [] :: h :: t else (c :: h) :: t

/-- `pair.split("_")[1]`: the base-currency code of an asset pair. -/
def splitBase (pair : String) : String :=
  String.mk ((splitOnChar '_' pair.data).getD 1 [])

/-- Assignment `m[k] = v` on a Python `dict` modelled as an association
list: updates the value in place if the key exists, appends otherwise. -/
def dictUpsert (m : List (String × String)) (k v : String) : List (String × String) :=
  if m.any (fun p => p.1 == k) then
    m.map (fun p => if p.1 == k then (p.1, v) else p)
  else m ++ [(k, v)]

/-- `asset_pair_map = {pair.split("_")[1]: pair for pair in asset_pairs}`. -/
def asset_pair_map (asset_pairs : List String) : List (String × String) :=
  asset_pairs.foldl (fun m pair => dictUpsert m (splitBase pair) pair) []

/-- `dict[k]` lookup (first matching entry; `""` never occurs on the uses
below because the key is always present). -/
def dictGet (m : List (String × String)) (k : String) : String :=
  ((m.find? (fun p => p.1 == k)).map Prod.snd).getD ""

/-- One metadata row selected by label, `none` when the label is absent. -/
def metaFind (meta : Metadata) (k : String) : Option (String × String) :=
  meta.find? (fun p => p.1 == k)

/-- `all_assets.ix[asset_pair_map.keys()]` in the pandas versions that
provide `.ix` (all pre-1.0): label-list selection *reindexes*, returning
one row per requested label in key-list order.  A label absent from the
index does not raise — its row simply carries NaN (`none`) in the `name`
column.  After `reset_index` the `symbol` column holds the requested
label itself, present or not. -/
def selectRows (meta : Metadata) (keys : List String) : List (String × Option String) :=
  keys.map (fun k => (k, (metaFind meta k).map Prod.snd))

/-- Enumerate a list with positions starting at `i` (the positional index
pandas gives the rows after `reset_index`). -/
def enumFromN {α : Type _} (i : Nat) : List α → List (Nat × α)
  | [] => []
  | a :: l => (i, a) :: enumFromN (i + 1) l

/-- `write_assets` of `bundle.py`.  Returns the rows written to the asset
db (`symbol`, `asset_name`, in selection order — the row position is the
internal asset id) together with the returned sid map
`{row position: asset_pair_map[symbol]}`.  A base currency absent from
the metadata source still gets a row (with a NaN `asset_name`) and a sid,
because `.ix` reindexes rather than raising. -/
def write_assets (meta : Metadata) (asset_pairs : List String) :
    List (String × Option String) × List (Nat × String) :=
  let apm := asset_pair_map asset_pairs
  let rows := selectRows meta (apm.map Prod.fst)
  (rows, (enumFromN 0 rows).map (fun p => (p.1, dictGet apm p.2.1)))

/-! ## The ingestion pipeline (`prepare_data`, `ingest`) -/

/-- One call to the trade fetcher (`get_trade_hist` via `fetch_trades`),
recorded as instrumentation: the cache key that was missed, the asset pair
and the closed fetch interval in epoch seconds. -/
structure FetchEvent where
  key : String
  pair : String
  start : Nat
  stop : Nat
  deriving DecidableEq, Repr

/-- One element yielded by the `prepare_data` generator, with the day it
was produced for kept as instrumentation (the generator itself yields the
pair `(sid, frame)`). -/
structure Visit where
  sid : Nat
  day : Nat
  frame : List CandleRow
  deriving DecidableEq, Repr

/-- The threaded state of a `prepare_data` run: the zipline-supplied cache
(a string-keyed mapping) plus the instrumentation logs. -/
structure RunState where
  cache : List (String × List CandleRow)
  fetches : List FetchEvent
  visits : List Visit
  deriving DecidableEq, Repr

/-- `cache[key]` lookup / `key in cache` membership. -/
def cacheFind (c : List (String × List CandleRow)) (k : String) : Option (List CandleRow) :=
  (c.find? (fun p => p.1 == k)).map Prod.snd

/-- The trade fetcher collaborator: pair, interval start, interval end
(both inclusive, in epoch seconds) to the day's trade rows. -/
abbrev FetchFn := String → Nat → Nat → List Trade

/-- The key of `get_key(sid, day)` for a day given as an epoch-second
instant: `day.strftime` formats the instant's calendar date. -/
def dayKey (sid day : Nat) : String := get_key sid (civilFromDays (day / 86400))

/-- One iteration of the inner loop of `prepare_data` for `(sid, day)`:
on a cache miss, fetch the closed interval
`[day, day + timedelta(days=1, seconds=-1)]`, aggregate, store; then yield
`(sid, cache[key])`. -/
def processDay (fetchFn : FetchFn) (sid : Nat) (pair : String) (st : RunState) (day : Nat) :
    RunState :=
  let key := dayKey sid day
  match cacheFind st.cache key with
  | some frame => { st with visits := st.visits ++ [⟨sid, day, frame⟩] }
  | none =>
    let nextDay := day + 86400 - 1
    let trades := fetchFn pair day nextDay
    let frame := make_candle_stick trades
    { cache := st.cache ++ [(key, frame)]
      fetches := st.fetches ++ [⟨key, pair, day, nextDay⟩]
      visits := st.visits ++ [⟨sid, day, frame⟩] }

/-- `pd.date_range(start, end, freq='D', closed='left')`: the instants
`start + 86400 * k` that lie strictly before `end` (the left-closed,
right-open daily grid anchored at `start`). -/
def dateRangeLeft (s e : Nat) : List Nat :=
  (List.range ((e - s + 86399) / 86400)).map (fun k => s + 86400 * k)

/-- The inner `for day in pd.date_range(...)` loop for one sid map entry. -/
def processSid (fetchFn : FetchFn) (days : List Nat) (st : RunState) (sp : Nat × String) :
    RunState :=
  days.foldl (processDay fetchFn sp.1 sp.2) st

/-- `prepare_data` of `bundle.py`, fully consumed: the outer loop over
`sid_map.items()`, threading the cache and accumulating the yielded
elements. -/
def prepare_data (fetchFn : FetchFn) (start stop : Nat) (sid_map : List (Nat × String))
    (st : RunState) : RunState :=
  sid_map.foldl (processSid fetchFn (dateRangeLeft start stop)) st

/-- A run's initial state: the caller-supplied cache, nothing fetched or
yielded yet. -/
def initState (cache : List (String × List CandleRow)) : RunState := ⟨cache, [], []⟩

/-- The `ingest` closure made by `create_bundle`: `write_assets` first
(its rows are the registry side effect), then `prepare_data` over the
session range, the result being handed to the minute-bar writer. -/
def ingest (meta : Metadata) (fetchFn : FetchFn) (asset_pairs : List String)
    (start stop : Nat) (cache : List (String × List CandleRow)) :
    List (String × Option String) × RunState :=
  let ws := write_assets meta asset_pairs
  (ws.1, prepare_data fetchFn start stop ws.2 (initState cache))

/-- The spec's worked example: trades at `00:00:10 (rate 10, total 5)`,
`00:00:50 (rate 12, total 3)` and `00:01:05 (rate 11, total 2)`. -/
def exTrade1 : Trade := ⟨10, 10, 5⟩

def exTrade2 : Trade := ⟨50, 12, 3⟩

def exTrade3 : Trade := ⟨65, 11, 2⟩

def exTrades : List Trade := [exTrade1, exTrade2, exTrade3]

/-- The numeric value of a decimal digit character. -/
def charVal (c : Char) : Nat := c.toNat - 48

/-- Recover the number from a most-significant-first decimal digit list. -/
def charsVal (cs : List Char) : Nat := Nat.ofDigits 10 ((cs.map charVal).reverse)

/-- Formalisation of the spec's claimed id assignment ("row position after
filtering the currency-metadata source to the requested base currencies,
in the order those currencies appear in the metadata source"), written for
comparison against what `write_assets` actually does. -/
def specSidMapMetaOrder (meta : Metadata) (asset_pairs : List String) : List (Nat × String) :=
  let apm := asset_pair_map asset_pairs
  (enumFromN 0 (meta.filter (fun row => apm.any (fun p => p.1 == row.1)))).map
    (fun p => (p.1, dictGet apm p.2.1))

/-- Number of fetch events in a log that hit a given cache key. -/
def countK (l : List FetchEvent) (k : String) : Nat :=
  (l.filter (fun ev => ev.key == k)).length

/-- One full consumption of `prepare_data` starting from a caller-supplied
cache (a first ingestion run). -/
def runOnce (fetchFn : FetchFn) (start stop : Nat) (sid_map : List (Nat × String))
    (cache : List (String × List CandleRow)) : RunState :=
  prepare_data fetchFn start stop sid_map (initState cache)

/-- A second ingestion run over the same range, reusing the cache the
first run left behind. -/
def runTwice (fetchFn : FetchFn) (start stop : Nat) (sid_map : List (Nat × String))
    (cache : List (String × List CandleRow)) : RunState :=
  prepare_data fetchFn start stop sid_map
    (initState (runOnce fetchFn start stop sid_map cache).cache)

/-! ## Generic fold invariants -/

theorem foldl_inv {σ α : Type _} (f : σ → α → σ) (P : σ → Prop)
    (h : ∀ s a, P s → P (f s a)) :
    ∀ (l : List α) (s : σ), P s → P (l.foldl f s)
  | [], _, hs => hs
  | a :: l, s, hs => foldl_inv f P h l (f s a) (h s a hs)

theorem foldl_inv_mem {σ α : Type _} (f : σ → α → σ) (P : σ → Prop) :
    ∀ (l : List α), (∀ s a, a ∈ l → P s → P (f s a)) → ∀ s, P s → P (l.foldl f s)
  | [], _, _, hs => hs
  | a :: l, h, s, hs =>
    foldl_inv_mem f P l (fun s b hb => h s b (List.mem_cons_of_mem a hb))
      (f s a) (h s a (List.mem_cons_self a l) hs)

/-- Establish `R` at the step that processes a member `a`, then preserve it. -/
theorem foldl_estab {σ α : Type _} (f : σ → α → σ) (P R : σ → Prop) (a : α)
    (hP : ∀ s b, P s → P (f s b)) (hR : ∀ s b, R s → R (f s b))
    (hE : ∀ s, P s → R (f s a)) :
    ∀ (l : List α), a ∈ l → ∀ s, P s → R (l.foldl f s) := by
  intro l
  induction l with
  | nil => intro h; cases h
  | cons b l ih =>
    intro hmem s hs
    rcases List.mem_cons.mp hmem with rfl | hmem
    · exact foldl_inv f R hR l (f s a) (hE s hs)
    · exact ih hmem (f s b) (hP s b hs)

/-! ## Aggregation lemmas for `make_candle_stick` -/

theorem foldl_max_init_le (l : List Trade) (a : ℚ) :
    a ≤ l.foldl (fun x u => max x u.rate) a := by
  induction l generalizing a with
  | nil => exact le_refl a
  | cons u l ih => exact le_trans (le_max_left a u.rate) (ih (max a u.rate))

theorem rate_le_foldl_max (l : List Trade) (a : ℚ) {u : Trade} (hu : u ∈ l) :
    u.rate ≤ l.foldl (fun x u => max x u.rate) a := by
  induction l generalizing a with
  | nil => cases hu
  | cons v l ih =>
    rcases List.mem_cons.mp hu with rfl | hu
    · exact le_trans (le_max_right a u.rate) (foldl_max_init_le l (max a u.rate))
    · exact ih (max a v.rate) hu

theorem foldl_max_cases (l : List Trade) (a : ℚ) :
    l.foldl (fun x u => max x u.rate) a = a ∨
      ∃ u ∈ l, l.foldl (fun x u => max x u.rate) a = u.rate := by
  induction l generalizing a with
  | nil => exact Or.inl rfl
  | cons v l ih =>
    rcases ih (max a v.rate) with h | ⟨u, hu, h⟩
    · rcases max_cases a v.rate with ⟨hm, _⟩ | ⟨hm, _⟩
      · exact Or.inl (by simpa [List.foldl_cons, hm] using h)
      · exact Or.inr ⟨v, List.mem_cons_self v l, by simpa [List.foldl_cons, hm] using h⟩
    · exact Or.inr ⟨u, List.mem_cons_of_mem v hu, h⟩

theorem foldl_min_le_init (l : List Trade) (a : ℚ) :
    l.foldl (fun x u => min x u.rate) a ≤ a := by
  induction l generalizing a with
  | nil => exact le_refl a
  | cons u l ih => exact le_trans (ih (min a u.rate)) (min_le_left a u.rate)

theorem foldl_min_le_rate (l : List Trade) (a : ℚ) {u : Trade} (hu : u ∈ l) :
    l.foldl (fun x u => min x u.rate) a ≤ u.rate := by
  induction l generalizing a with
  | nil => cases hu
  | cons v l ih =>
    rcases List.mem_cons.mp hu with rfl | hu
    · exact le_trans (foldl_min_le_init l (min a u.rate)) (min_le_right a u.rate)
    · exact ih (min a v.rate) hu

theorem foldl_min_cases (l : List Trade) (a : ℚ) :
    l.foldl (fun x u => min x u.rate) a = a ∨
      ∃ u ∈ l, l.foldl (fun x u => min x u.rate) a = u.rate := by
  induction l generalizing a with
  | nil => exact Or.inl rfl
  | cons v l ih =>
    rcases ih (min a v.rate) with h | ⟨u, hu, h⟩
    · rcases min_cases a v.rate with ⟨hm, _⟩ | ⟨hm, _⟩
      · exact Or.inl (by simpa [List.foldl_cons, hm] using h)
      · exact Or.inr ⟨v, List.mem_cons_self v l, by simpa [List.foldl_cons, hm] using h⟩
    · exact Or.inr ⟨u, List.mem_cons_of_mem v hu, h⟩

/-- Nat variants for the bucket extent folds. -/
theorem foldl_natmin_le_init (l : List Trade) (a : Nat) :
    l.foldl (fun x u => Nat.min x (tradeBucket u)) a ≤ a := by
  induction l generalizing a with
  | nil => exact le_refl a
  | cons u l ih => exact le_trans (ih (Nat.min a (tradeBucket u))) (Nat.min_le_left _ _)

theorem foldl_natmin_le_mem (l : List Trade) (a : Nat) {u : Trade} (hu : u ∈ l) :
    l.foldl (fun x u => Nat.min x (tradeBucket u)) a ≤ tradeBucket u := by
  induction l generalizing a with
  | nil => cases hu
  | cons v l ih =>
    rcases List.mem_cons.mp hu with rfl | hu
    · exact le_trans (foldl_natmin_le_init l _) (Nat.min_le_right _ _)
    · exact ih _ hu

theorem foldl_natmax_init_le (l : List Trade) (a : Nat) :
    a ≤ l.foldl (fun x u => Nat.max x (tradeBucket u)) a := by
  induction l generalizing a with
  | nil => exact le_refl a
  | cons u l ih => exact le_trans (Nat.le_max_left _ _) (ih (Nat.max a (tradeBucket u)))

theorem foldl_natmax_mem_le (l : List Trade) (a : Nat) {u : Trade} (hu : u ∈ l) :
    tradeBucket u ≤ l.foldl (fun x u => Nat.max x (tradeBucket u)) a := by
  induction l generalizing a with
  | nil => cases hu
  | cons v l ih =>
    rcases List.mem_cons.mp hu with rfl | hu
    · exact le_trans (Nat.le_max_right _ _) (foldl_natmax_init_le l _)
    · exact ih _ hu

/-- Every bucket holding at least one trade lies in the resampling range
and hence gets a row in the output frame. -/
theorem bucket_mem_bucketRange {trades : List Trade} {b : Nat}
    (h : bucketTrades trades b ≠ []) : b ∈ bucketRange trades := by
  obtain ⟨u, hu⟩ : ∃ u, u ∈ bucketTrades trades b := by
    cases hbt : bucketTrades trades b with
    | nil => exact absurd hbt h
    | cons v l => exact ⟨v, hbt ▸ List.mem_cons_self v l⟩
  have hmem := (List.mem_filter.mp hu).1
  have hb : tradeBucket u = b := by
    simpa using (List.mem_filter.mp hu).2
  cases trades with
  | nil => cases hmem
  | cons t ts =>
    have hlo : bucketLo t ts ≤ b := by
      rcases List.mem_cons.mp hmem with rfl | hmem'
      · exact hb ▸ foldl_natmin_le_init ts (tradeBucket u)
      · exact hb ▸ foldl_natmin_le_mem ts _ hmem'
    have hhi : b ≤ bucketHi t ts := by
      rcases List.mem_cons.mp hmem with rfl | hmem'
      · exact hb ▸ foldl_natmax_init_le ts (tradeBucket u)
      · exact hb ▸ foldl_natmax_mem_le ts _ hmem'
    simp only [bucketRange, List.mem_map, List.mem_range]
    exact ⟨b - bucketLo t ts, by omega, by omega⟩

/-- What the row of `make_candle_stick trades` at bucket `b` looks like. -/
theorem make_candle_stick_mem {trades : List Trade} {b : Nat}
    (hb : b ∈ bucketRange trades) :
    ({ bucket := b
       open_ := seriesOpen trades b
       high := seriesHigh trades b
       low := seriesLow trades b
       close := seriesClose trades b
       volume := fillna (seriesSum trades b) } : CandleRow) ∈ make_candle_stick trades :=
  List.mem_map_of_mem _ hb

theorem eq_row_of_mem_make_candle_stick {trades : List Trade} {row : CandleRow}
    (h : row ∈ make_candle_stick trades) :
    row.bucket ∈ bucketRange trades ∧
      row = { bucket := row.bucket
              open_ := seriesOpen trades row.bucket
              high := seriesHigh trades row.bucket
              low := seriesLow trades row.bucket
              close := seriesClose trades row.bucket
              volume := fillna (seriesSum trades row.bucket) } := by
  obtain ⟨b, hb, hrow⟩ := List.mem_map.mp h
  cases hrow
  exact ⟨hb, rfl⟩

/-- C3: `make_candle_stick` buckets trades by minute truncation and, for
every bucket holding at least one trade (listed `t :: bt` in row order),
emits a row with open = first trade's rate, close = last trade's rate,
high = maximum rate, low = minimum rate, volume = sum of `total`; on the
spec's worked example it produces exactly the two stated buckets. -/
theorem candle_bucket_aggregation :
    (∀ (trades : List Trade) (b : Nat) (t : Trade) (bt : List Trade),
      bucketTrades trades b = t :: bt →
      ∃ row ∈ make_candle_stick trades,
        row.bucket = b ∧
        row.open_ = some t.rate ∧
        row.close = ((t :: bt).getLast?).map Trade.rate ∧
        (∃ hi, row.high = some hi ∧ hi ∈ (t :: bt).map Trade.rate ∧
          ∀ r ∈ (t :: bt).map Trade.rate, r ≤ hi) ∧
        (∃ lo, row.low = some lo ∧ lo ∈ (t :: bt).map Trade.rate ∧
          ∀ r ∈ (t :: bt).map Trade.rate, lo ≤ r) ∧
        row.volume = ((t :: bt).map Trade.total).sum) ∧
    make_candle_stick exTrades =
      [⟨0, some 10, some 12, some 10, some 12, 8⟩,
       ⟨1, some 11, some 11, some 11, some 11, 2⟩] := by
  constructor
  · intro trades b t bt hbt
    have hb : b ∈ bucketRange trades := bucket_mem_bucketRange (by simp [hbt])
    refine ⟨_, make_candle_stick_mem hb, rfl, ?_, ?_, ?_, ?_, ?_⟩
    · simp [seriesOpen, hbt]
    · simp [seriesClose, hbt]
    · simp only [seriesHigh, hbt]
      refine ⟨_, rfl, ?_, ?_⟩
      · rcases foldl_max_cases bt t.rate with h | ⟨u, hu, h⟩
        · rw [h]; exact List.mem_map_of_mem _ (List.mem_cons_self t bt)
        · rw [h]; exact List.mem_map_of_mem _ (List.mem_cons_of_mem t hu)
      · intro r hr
        obtain ⟨u, hu, rfl⟩ := List.mem_map.mp hr
        rcases List.mem_cons.mp hu with rfl | hu
        · exact foldl_max_init_le bt u.rate
        · exact rate_le_foldl_max bt t.rate hu
    · simp only [seriesLow, hbt]
      refine ⟨_, rfl, ?_, ?_⟩
      · rcases foldl_min_cases bt t.rate with h | ⟨u, hu, h⟩
        · rw [h]; exact List.mem_map_of_mem _ (List.mem_cons_self t bt)
        · rw [h]; exact List.mem_map_of_mem _ (List.mem_cons_of_mem t hu)
      · intro r hr
        obtain ⟨u, hu, rfl⟩ := List.mem_map.mp hr
        rcases List.mem_cons.mp hu with rfl | hu
        · exact foldl_min_le_init bt u.rate
        · exact foldl_min_le_rate bt t.rate hu
    · simp [seriesSum, hbt, fillna]
  · norm_num [make_candle_stick, bucketRange, exTrades, exTrade1, exTrade2, exTrade3,
      bucketHi, bucketLo, seriesOpen, seriesClose, seriesHigh, seriesLow, seriesSum,
      bucketTrades, fillna, tradeBucket, List.range_succ, List.filter, List.foldl, List.find?]

/-- Witness for C3: the general statement applied to the spec's worked
example at bucket `00:00`. -/
theorem candle_bucket_aggregation_witness :
    ∃ row ∈ make_candle_stick exTrades,
      row.bucket = 0 ∧
      row.open_ = some exTrade1.rate ∧
      row.close = (([exTrade1, exTrade2].getLast?).map Trade.rate) ∧
      (∃ hi, row.high = some hi ∧ hi ∈ [exTrade1, exTrade2].map Trade.rate ∧
        ∀ r ∈ [exTrade1, exTrade2].map Trade.rate, r ≤ hi) ∧
      (∃ lo, row.low = some lo ∧ lo ∈ [exTrade1, exTrade2].map Trade.rate ∧
        ∀ r ∈ [exTrade1, exTrade2].map Trade.rate, lo ≤ r) ∧
      row.volume = ([exTrade1, exTrade2].map Trade.total).sum :=
  candle_bucket_aggregation.1 exTrades 0 exTrade1 [exTrade2] (by decide)

/-- C9: every output bucket of `make_candle_stick` that holds at least one
trade has all four price fields present with low ≤ open ≤ high and
low ≤ close ≤ high, and its volume is non-negative whenever every trade's
`total` is non-negative. -/
theorem candle_ohlc_invariant (trades : List Trade) (b : Nat) (t : Trade) (bt : List Trade)
    (hbt : bucketTrades trades b = t :: bt) :
    ∃ row ∈ make_candle_stick trades,
      row.bucket = b ∧
      ∃ o hi lo c, row.open_ = some o ∧ row.high = some hi ∧ row.low = some lo ∧
        row.close = some c ∧
        lo ≤ o ∧ o ≤ hi ∧ lo ≤ c ∧ c ≤ hi ∧
        ((∀ u ∈ trades, 0 ≤ u.total) → 0 ≤ row.volume) := by
  have hb : b ∈ bucketRange trades := bucket_mem_bucketRange (by simp [hbt])
  refine ⟨_, make_candle_stick_mem hb, rfl, t.rate, bt.foldl (fun a u => max a u.rate) t.rate,
    bt.foldl (fun a u => min a u.rate) t.rate, ((t :: bt).getLast (by simp)).rate,
    ?_, ?_, ?_, ?_, ?_, ?_, ?_, ?_, ?_⟩
  · simp [seriesOpen, hbt]
  · simp [seriesHigh, hbt]
  · simp [seriesLow, hbt]
  · simp [seriesClose, hbt, List.getLast?_eq_getLast]
  · exact foldl_min_le_init bt t.rate
  · exact foldl_max_init_le bt t.rate
  · rcases List.mem_cons.mp (List.getLast_mem (l := t :: bt) (by simp)) with h | h
    · rw [h]; exact foldl_min_le_init bt t.rate
    · exact foldl_min_le_rate bt t.rate h
  · rcases List.mem_cons.mp (List.getLast_mem (l := t :: bt) (by simp)) with h | h
    · rw [h]; exact foldl_max_init_le bt t.rate
    · exact rate_le_foldl_max bt t.rate h
  · intro hnn
    simp only [fillna, seriesSum, hbt, Option.getD_some]
    apply List.sum_nonneg
    intro x hx
    obtain ⟨u, hu, rfl⟩ := List.mem_map.mp hx
    exact hnn u (List.mem_filter.mp (hbt ▸ hu : u ∈ bucketTrades trades b)).1

/-- Witness for C9: the invariant at the worked example's first bucket. -/
theorem candle_ohlc_invariant_witness :
    ∃ row ∈ make_candle_stick exTrades,
      row.bucket = 0 ∧
      ∃ o hi lo c, row.open_ = some o ∧ row.high = some hi ∧ row.low = some lo ∧
        row.close = some c ∧
        lo ≤ o ∧ o ≤ hi ∧ lo ≤ c ∧ c ≤ hi ∧
        ((∀ u ∈ exTrades, 0 ≤ u.total) → 0 ≤ row.volume) :=
  candle_ohlc_invariant exTrades 0 exTrade1 [exTrade2] (by decide)

/-! ## Injectivity of the cache-key format -/

theorem digitsRevAux_eq : ∀ (n fuel : Nat), n ≤ fuel → digitsRevAux fuel n = Nat.digits 10 n := by
  intro n
  induction n using Nat.strong_induction_on with
  | _ n ih =>
    match n with
    | 0 => intro fuel _; cases fuel <;> simp [digitsRevAux]
    | n + 1 =>
      intro fuel h
      match fuel, h with
      | fuel + 1, h =>
        rw [digitsRevAux, Nat.digits_def' (b := 10) (by norm_num) (Nat.succ_pos n)]
        have hlt : (n + 1) / 10 < n + 1 := Nat.div_lt_self (Nat.succ_pos n) (by norm_num)
        rw [ih ((n + 1) / 10) hlt fuel (by omega)]

theorem charVal_digitChar : ∀ d, d < 10 → charVal (Nat.digitChar d) = d := by decide

theorem ofDigits_replicate_zero (k : Nat) : Nat.ofDigits 10 (List.replicate k 0) = 0 := by
  induction k with
  | zero => rfl
  | succ k ih => simp [List.replicate_succ, Nat.ofDigits_cons, ih]

/-- Value recovery: reading back the zero-padded decimal notation of `n`
gives `n`, for any pad width. -/
theorem charVal_zero : charVal '0' = 0 := rfl

theorem charsVal_padChars (w n : Nat) : charsVal (padChars w (digitsChars n)) = n := by
  have hdig : digitsRevAux n n = Nat.digits 10 n := digitsRevAux_eq n n le_rfl
  have hmap : (Nat.digits 10 n).map (charVal ∘ Nat.digitChar) = Nat.digits 10 n := by
    apply List.map_congr_left ?_ |>.trans (List.map_id _)
    intro d hd
    exact charVal_digitChar d (Nat.digits_lt_base (by norm_num) hd)
  simp only [charsVal, padChars, digitsChars, hdig, List.map_append, List.reverse_append,
    List.map_reverse, List.reverse_reverse, List.map_replicate, List.reverse_replicate,
    charVal_zero, List.map_map, hmap, Nat.ofDigits_append, ofDigits_replicate_zero,
    Nat.mul_zero, Nat.add_zero, Nat.ofDigits_digits]

/-- The padded decimal notation of `n < 10 ^ w` is exactly `w` characters. -/
theorem padChars_length {w n : Nat} (h : n < 10 ^ w) :
    (padChars w (digitsChars n)).length = w := by
  have hlen : (digitsChars n).length ≤ w := by
    rcases Nat.eq_zero_or_pos n with rfl | hn
    · simp [digitsChars, digitsRevAux]
    · have : (Nat.digits 10 n).length = Nat.log 10 n + 1 :=
        Nat.digits_len 10 n (by norm_num) (Nat.pos_iff_ne_zero.mp hn)
      have hlog : Nat.log 10 n < w :=
        Nat.log_lt_of_lt_pow (Nat.pos_iff_ne_zero.mp hn) h
      simp only [digitsChars, List.length_reverse, List.length_map,
        digitsRevAux_eq n n le_rfl]
      omega
  simp only [padChars, List.length_append, List.length_replicate]
  omega

theorem padChars_inj {w n m : Nat} (h : padChars w (digitsChars n) = padChars w (digitsChars m)) :
    n = m := by
  have := charsVal_padChars w n
  rw [h, charsVal_padChars] at this
  exact this.symm

theorem reprChars_inj {n m : Nat} (h : reprChars n = reprChars m) : n = m :=
  padChars_inj h

/-- `strftime("%Y-%m-%d")` output of a pandas-representable date is ten
characters and determines the date. -/
theorem strftimeYmd_length {d : Date} (hd : d.Valid) : (strftimeYmd d).length = 10 := by
  obtain ⟨h1, h2, h3, h4, h5⟩ := hd
  have hy : (padChars 4 (digitsChars d.year)).length = 4 := padChars_length (by omega)
  have hm : (padChars 2 (digitsChars d.month)).length = 2 := padChars_length (by omega)
  have hdd : (padChars 2 (digitsChars d.day)).length = 2 := padChars_length (by omega)
  simp [strftimeYmd, hy, hm, hdd]

theorem strftimeYmd_inj {d₁ d₂ : Date} (h1 : d₁.Valid) (h2 : d₂.Valid)
    (h : strftimeYmd d₁ = strftimeYmd d₂) : d₁ = d₂ := by
  obtain ⟨h1m, h1m2, h1d, h1d2, h1y⟩ := h1
  obtain ⟨h2m, h2m2, h2d, h2d2, h2y⟩ := h2
  have hy1 : (padChars 4 (digitsChars d₁.year)).length = 4 := padChars_length (by omega)
  have hy2 : (padChars 4 (digitsChars d₂.year)).length = 4 := padChars_length (by omega)
  have hm1 : (padChars 2 (digitsChars d₁.month)).length = 2 := padChars_length (by omega)
  have hm2 : (padChars 2 (digitsChars d₂.month)).length = 2 := padChars_length (by omega)
  unfold strftimeYmd at h
  obtain ⟨hy, h⟩ := List.append_inj h (hy1.trans hy2.symm)
  obtain ⟨-, h⟩ := List.cons_eq_cons.mp h
  obtain ⟨hm, h⟩ := List.append_inj h (hm1.trans hm2.symm)
  obtain ⟨-, hd⟩ := List.cons_eq_cons.mp h
  have : d₁.year = d₂.year := padChars_inj hy
  have : d₁.month = d₂.month := padChars_inj hm
  have : d₁.day = d₂.day := padChars_inj hd
  cases d₁; cases d₂
  simp_all

/-- C10: `get_key` is injective — two distinct `(sid, date)` pairs always
produce distinct cache keys, so frames of different assets or days can
never collide in the cache. -/
theorem get_key_injective (s₁ s₂ : Nat) (d₁ d₂ : Date) (h1 : d₁.Valid) (h2 : d₂.Valid)
    (h : get_key s₁ d₁ = get_key s₂ d₂) : s₁ = s₂ ∧ d₁ = d₂ := by
  unfold get_key at h
  have hdata : reprChars s₁ ++ '_' :: strftimeYmd d₁ = reprChars s₂ ++ '_' :: strftimeYmd d₂ := by
    injection h
  have hlen : ('_' :: strftimeYmd d₁).length = ('_' :: strftimeYmd d₂).length := by
    simp [strftimeYmd_length h1, strftimeYmd_length h2]
  obtain ⟨hs, hrest⟩ := List.append_inj' hdata hlen
  obtain ⟨-, hd⟩ := List.cons_eq_cons.mp hrest
  exact ⟨reprChars_inj hs, strftimeYmd_inj h1 h2 hd⟩

/-- Witness for C10: two concrete keys agreeing forces equal sid and date. -/
theorem get_key_injective_witness :
    (Date.Valid ⟨2016, 1, 2⟩) ∧ (3 = 3 ∧ (⟨2016, 1, 2⟩ : Date) = ⟨2016, 1, 2⟩) :=
  ⟨by decide, get_key_injective 3 3 ⟨2016, 1, 2⟩ ⟨2016, 1, 2⟩ (by decide) (by decide) (by decide)⟩

/-! ## Injectivity of the day-count to date conversion -/

theorem div_mono_sub_1460 {d D : Nat} (h : d ≤ D) : d - d / 1460 ≤ D - D / 1460 := by
  omega

theorem uFacts (doe : Nat) (h : doe ≤ 146095) :
    doe / 36524 ≤ doe / 1460 ∧ doe / 146096 = 0 ∧ doe / 36524 ≤ 3 ∧
      doe - doe / 1460 + doe / 36524 - doe / 146096 ≤ 145998 ∧
      doe / 1460 ≤ 100 ∧
      36500 * (doe / 36524) ≤ doe - doe / 1460 + doe / 36524 - doe / 146096 := by
  have hcq : doe / 36524 ≤ doe / 1460 := Nat.div_le_div_left (by norm_num) (by norm_num)
  have hf : doe / 146096 = 0 := Nat.div_eq_of_lt (by omega)
  have hg : doe - doe / 1460 ≤ 145995 := by
    have h2 := div_mono_sub_1460 h
    norm_num at h2
    omega
  have hc3 : doe / 36524 ≤ 3 := by
    have h2 : doe / 36524 ≤ 146095 / 36524 := Nat.div_le_div_right h
    norm_num at h2
    exact h2
  have hq100 : doe / 1460 ≤ 100 := by
    have h2 : doe / 1460 ≤ 146095 / 1460 := Nat.div_le_div_right h
    norm_num at h2
    exact h2
  have hgc : 36524 * (doe / 36524) ≤ doe := Nat.div_mul_le_self doe 36524 |>.trans_eq' (by ring)
  have hmono := div_mono_sub_1460 hgc
  have h25 : 36524 * (doe / 36524) / 1460 = 25 * (doe / 36524) := by
    have e : 36524 * (doe / 36524) = 1460 * (25 * (doe / 36524)) + 24 * (doe / 36524) := by ring
    rw [e, Nat.mul_add_div (by norm_num)]
    have : 24 * (doe / 36524) / 1460 = 0 := Nat.div_eq_of_lt (by omega)
    omega
  refine ⟨hcq, hf, hc3, by omega, hq100, ?_⟩
  rw [h25] at hmono
  omega

theorem yFacts (u : Nat) (hu : u ≤ 145998) :
    365 * (u / 365) + u % 365 = u ∧ (u / 365) / 4 = u / 1460 ∧
      (u / 365) / 100 = u / 36500 ∧ u / 365 ≤ 399 := by
  refine ⟨Nat.div_add_mod u 365, ?_, ?_, by omega⟩
  · rw [Nat.div_div_eq_div_mul]
  · rw [Nat.div_div_eq_div_mul]

set_option maxHeartbeats 4000000 in
theorem ysFacts (doe : Nat) (h : doe ≤ 146095) :
    ysOf (yoeOf doe) ≤ doe ∧ doe - ysOf (yoeOf doe) ≤ 366 ∧ yoeOf doe ≤ 399 := by
  obtain ⟨hcq, hf, hc3, hu198, hq100, h36500⟩ := uFacts doe h
  obtain ⟨hdm, hd4, hd100, hY⟩ := yFacts (doe - doe / 1460 + doe / 36524 - doe / 146096) hu198
  have huq : doe - doe / 1460 + doe / 36524 - doe / 146096 ≤ doe := by omega
  have ha : (doe - doe / 1460 + doe / 36524 - doe / 146096) / 1460 ≤ doe / 1460 :=
    Nat.div_le_div_right huq
  have hqstep : (doe - doe / 1460) / 1460 + 1 ≥ doe / 1460 := by omega
  have ha2 : (doe - doe / 1460) / 1460 ≤
      (doe - doe / 1460 + doe / 36524 - doe / 146096) / 1460 :=
    Nat.div_le_div_right (by omega)
  have hb1 : doe / 36524 ≤ (doe - doe / 1460 + doe / 36524 - doe / 146096) / 36500 :=
    (Nat.le_div_iff_mul_le (by norm_num)).mpr (by omega)
  have hb2 : (doe - doe / 1460 + doe / 36524 - doe / 146096) / 36500 ≤ doe / 36524 + 1 := by
    have hlt : doe - doe / 1460 + doe / 36524 - doe / 146096 < 36500 * (doe / 36524 + 2) := by
      have hmod := Nat.div_add_mod doe 36524
      have hr : doe % 36524 < 36524 := Nat.mod_lt _ (by norm_num)
      omega
    have h2 : (doe - doe / 1460 + doe / 36524 - doe / 146096) / 36500 < doe / 36524 + 2 :=
      (Nat.div_lt_iff_lt_mul (by norm_num)).mpr (by omega)
    omega
  unfold ysOf yoeOf
  rw [hd4, hd100]
  omega

theorem ysFactsFull (doe : Nat) (h : doe ≤ 146096) :
    ysOf (yoeOf doe) ≤ doe ∧ doe - ysOf (yoeOf doe) ≤ 366 ∧ yoeOf doe ≤ 399 := by
  rcases Nat.lt_or_ge doe 146096 with h' | h'
  · exact ysFacts doe (by omega)
  · have hd : doe = 146096 := by omega
    subst hd
    refine ⟨by decide, by decide, by decide⟩

theorem mpFacts (doy : Nat) (h : doy ≤ 366) :
    (5 * doy + 2) / 153 ≤ 11 ∧ (153 * ((5 * doy + 2) / 153) + 2) / 5 ≤ doy := by
  omega

/-- `civilFromDays` and `daysFromCivil` are mutually inverse, so the
day-count to date conversion never conflates two days. -/
theorem daysFromCivil_civilFromDays (n : Nat) : daysFromCivil (civilFromDays n) = n := by
  have hz : 146097 * ((n + 719468) / 146097) + (n + 719468) % 146097 = n + 719468 :=
    Nat.div_add_mod _ _
  have hdoe_lt : (n + 719468) % 146097 < 146097 := Nat.mod_lt _ (by norm_num)
  obtain ⟨hys, hdoy, hyoe⟩ := ysFactsFull ((n + 719468) % 146097) (by omega)
  obtain ⟨hmp11, hmp5⟩ :=
    mpFacts ((n + 719468) % 146097 - ysOf (yoeOf ((n + 719468) % 146097))) hdoy
  set z := n + 719468 with hzdef
  set era := z / 146097 with heradef
  set doe := z % 146097 with hdoedef
  set Y := yoeOf doe with hYdef
  set doy := doe - ysOf Y with hdoydef
  set mp := (5 * doy + 2) / 153 with hmpdef
  set dd := doy - (153 * mp + 2) / 5 + 1 with hdddef
  have hciv : civilFromDays n =
      ⟨if (if mp < 10 then mp + 3 else mp - 9) ≤ 2 then Y + era * 400 + 1 else Y + era * 400,
       if mp < 10 then mp + 3 else mp - 9, dd⟩ := rfl
  rw [hciv]
  simp only [daysFromCivil]
  have hysdef : ysOf Y = 365 * Y + Y / 4 - Y / 100 := rfl
  by_cases hmp10 : mp < 10
  · simp only [if_pos hmp10]
    have hm3 : ¬(mp + 3 ≤ 2) := by omega
    have hm3' : 2 < mp + 3 := by omega
    simp only [if_neg hm3, if_pos hm3']
    have h400a : (Y + era * 400) / 400 = era := by omega
    have h400b : (Y + era * 400) % 400 = Y := by omega
    rw [h400a, h400b]
    omega
  · simp only [if_neg hmp10]
    have hm2 : mp - 9 ≤ 2 := by omega
    have hm2' : ¬(2 < mp - 9) := by omega
    simp only [if_pos hm2, if_neg hm2']
    have hy1 : Y + era * 400 + 1 - 1 = Y + era * 400 := by omega
    rw [hy1]
    have h400a : (Y + era * 400) / 400 = era := by omega
    have h400b : (Y + era * 400) % 400 = Y := by omega
    rw [h400a, h400b]
    omega

theorem civilFromDays_injective {a b : Nat} (h : civilFromDays a = civilFromDays b) : a = b := by
  have h1 := daysFromCivil_civilFromDays a
  rw [h, daysFromCivil_civilFromDays b] at h1
  exact h1.symm

/-! ## Unconditional cache-key injectivity -/

theorem mem_padChars_digitsChars {c : Char} {w n : Nat} (h : c ∈ padChars w (digitsChars n)) :
    c = '0' ∨ ∃ d, d < 10 ∧ c = Nat.digitChar d := by
  unfold padChars at h
  rcases List.mem_append.mp h with h | h
  · exact Or.inl (List.eq_of_mem_replicate h)
  · unfold digitsChars at h
    rw [digitsRevAux_eq n n le_rfl] at h
    obtain ⟨d, hd, rfl⟩ := List.mem_map.mp (List.mem_reverse.mp h)
    exact Or.inr ⟨d, Nat.digits_lt_base (by norm_num) hd, rfl⟩

theorem underscore_not_mem (w n : Nat) : '_' ∉ padChars w (digitsChars n) := by
  intro h
  rcases mem_padChars_digitsChars h with h | ⟨d, hd, h⟩
  · cases h
  · revert h
    revert hd
    revert d
    decide

theorem dash_not_mem (w n : Nat) : '-' ∉ padChars w (digitsChars n) := by
  intro h
  rcases mem_padChars_digitsChars h with h | ⟨d, hd, h⟩
  · cases h
  · revert h
    revert hd
    revert d
    decide

/-- Concatenations around a separator that occurs in neither left part
split uniquely. -/
theorem append_sep_inj {sep : Char} :
    ∀ {l₁ l₂ r₁ r₂ : List Char}, sep ∉ l₁ → sep ∉ l₂ →
      l₁ ++ sep :: r₁ = l₂ ++ sep :: r₂ → l₁ = l₂ ∧ r₁ = r₂ := by
  intro l₁
  induction l₁ with
  | nil =>
    intro l₂ r₁ r₂ _ h2 h
    cases l₂ with
    | nil => simpa using h
    | cons c t =>
      simp only [List.nil_append, List.cons_append, List.cons.injEq] at h
      exact absurd (h.1 ▸ List.mem_cons_self c t) h2
  | cons a t ih =>
    intro l₂ r₁ r₂ h1 h2 h
    cases l₂ with
    | nil =>
      simp only [List.cons_append, List.nil_append, List.cons.injEq] at h
      exact absurd (h.1 ▸ List.mem_cons_self a t) h1
    | cons b t₂ =>
      simp only [List.cons_append, List.cons.injEq] at h
      obtain ⟨rfl, h⟩ := h
      obtain ⟨ht, hr⟩ := ih (fun hx => h1 (List.mem_cons_of_mem a hx))
        (fun hx => h2 (List.mem_cons_of_mem a hx)) h
      exact ⟨by rw [ht], hr⟩

/-- `get_key` is injective on all sids and dates, with no validity
assumption: the `_` and `-` separators cannot occur in the numeric parts. -/
theorem get_key_inj {s₁ s₂ : Nat} {d₁ d₂ : Date} (h : get_key s₁ d₁ = get_key s₂ d₂) :
    s₁ = s₂ ∧ d₁ = d₂ := by
  unfold get_key at h
  have hl : reprChars s₁ ++ '_' :: strftimeYmd d₁ = reprChars s₂ ++ '_' :: strftimeYmd d₂ := by
    injection h
  obtain ⟨h1, h2⟩ := append_sep_inj (underscore_not_mem 1 s₁) (underscore_not_mem 1 s₂) hl
  unfold strftimeYmd at h2
  obtain ⟨hy, h3⟩ := append_sep_inj (dash_not_mem 4 _) (dash_not_mem 4 _) h2
  obtain ⟨hm, hd⟩ := append_sep_inj (dash_not_mem 2 _) (dash_not_mem 2 _) h3
  refine ⟨reprChars_inj h1, ?_⟩
  have hy' := padChars_inj hy
  have hm' := padChars_inj hm
  have hd' := padChars_inj hd
  cases d₁
  cases d₂
  simp_all

/-- The composite key function of `prepare_data` separates sids and
separates calendar days. -/
theorem dayKey_inj {sid₁ sid₂ day₁ day₂ : Nat} (h : dayKey sid₁ day₁ = dayKey sid₂ day₂) :
    sid₁ = sid₂ ∧ day₁ / 86400 = day₂ / 86400 := by
  obtain ⟨hs, hd⟩ := get_key_inj h
  exact ⟨hs, civilFromDays_injective hd⟩

theorem dateRangeLeft_mem {s e d : Nat} :
    d ∈ dateRangeLeft s e ↔ ∃ k, k < (e - s + 86399) / 86400 ∧ d = s + 86400 * k := by
  simp only [dateRangeLeft, List.mem_map, List.mem_range]
  constructor
  · rintro ⟨k, hk, rfl⟩
    exact ⟨k, hk, rfl⟩
  · rintro ⟨k, hk, rfl⟩
    exact ⟨k, hk, rfl⟩

/-- Two days of one requested range with the same calendar day index are
the same day. -/
theorem dateRangeLeft_day_inj {s e d d' : Nat} (hd : d ∈ dateRangeLeft s e)
    (hd' : d' ∈ dateRangeLeft s e) (h : d / 86400 = d' / 86400) : d = d' := by
  obtain ⟨k, -, rfl⟩ := dateRangeLeft_mem.mp hd
  obtain ⟨k', -, rfl⟩ := dateRangeLeft_mem.mp hd'
  rw [Nat.add_mul_div_left _ _ (by norm_num : 0 < 86400),
    Nat.add_mul_div_left _ _ (by norm_num : 0 < 86400)] at h
  omega

/-! ## Cache and pipeline step lemmas -/

theorem cacheFind_cons (p : String × List CandleRow) (t : List (String × List CandleRow))
    (k : String) :
    cacheFind (p :: t) k = if p.1 == k then some p.2 else cacheFind t k := by
  simp only [cacheFind, List.find?]
  cases h : (p.1 == k) <;> simp

theorem cacheFind_append_some {c : List (String × List CandleRow)} {k : String}
    {v : List CandleRow} (h : cacheFind c k = some v) (l : List (String × List CandleRow)) :
    cacheFind (c ++ l) k = some v := by
  induction c with
  | nil => simp [cacheFind] at h
  | cons p t ih =>
    rw [cacheFind_cons] at h
    rw [List.cons_append, cacheFind_cons]
    split at h
    · rename_i hp
      rw [if_pos hp]
      exact h
    · rename_i hp
      rw [if_neg hp]
      exact ih h

theorem cacheFind_append_none {c : List (String × List CandleRow)} {k : String}
    (h : cacheFind c k = none) (l : List (String × List CandleRow)) :
    cacheFind (c ++ l) k = cacheFind l k := by
  induction c with
  | nil => simp
  | cons p t ih =>
    rw [cacheFind_cons] at h
    rw [List.cons_append, cacheFind_cons]
    split at h
    · cases h
    · rename_i hp
      rw [if_neg hp]
      exact ih h

theorem cacheFind_singleton_self (k : String) (fr : List CandleRow) :
    cacheFind [(k, fr)] k = some fr := by
  rw [cacheFind_cons]
  simp

theorem cacheFind_singleton_ne {k k' : String} (h : k' ≠ k) (fr : List CandleRow) :
    cacheFind [(k', fr)] k = none := by
  rw [cacheFind_cons]
  simp [cacheFind, h]

theorem countK_append (l₁ l₂ : List FetchEvent) (k : String) :
    countK (l₁ ++ l₂) k = countK l₁ k + countK l₂ k := by
  simp [countK, List.filter_append]

theorem countK_singleton_self (ev : FetchEvent) (h : ev.key = k) : countK [ev] k = 1 := by
  simp [countK, List.filter, h]

theorem countK_singleton_ne (ev : FetchEvent) (h : ev.key ≠ k) : countK [ev] k = 0 := by
  have hb : (ev.key == k) = false := beq_eq_false_iff_ne.mpr h
  simp [countK, List.filter, hb]

theorem processDay_hit {fetchFn : FetchFn} {sid : Nat} {pair : String} {st : RunState}
    {day : Nat} {v : List CandleRow} (h : cacheFind st.cache (dayKey sid day) = some v) :
    processDay fetchFn sid pair st day = { st with visits := st.visits ++ [⟨sid, day, v⟩] } := by
  dsimp only [processDay]
  rw [h]

theorem processDay_miss {fetchFn : FetchFn} {sid : Nat} {pair : String} {st : RunState}
    {day : Nat} (h : cacheFind st.cache (dayKey sid day) = none) :
    processDay fetchFn sid pair st day =
      { cache := st.cache ++
          [(dayKey sid day, make_candle_stick (fetchFn pair day (day + 86400 - 1)))]
        fetches := st.fetches ++ [⟨dayKey sid day, pair, day, day + 86400 - 1⟩]
        visits := st.visits ++
          [⟨sid, day, make_candle_stick (fetchFn pair day (day + 86400 - 1))⟩] } := by
  dsimp only [processDay]
  rw [h]

/-- A state predicate preserved by every single-day step is preserved by a
whole `prepare_data` run. -/
theorem prepare_data_inv (fetchFn : FetchFn) (s e : Nat) (P : RunState → Prop)
    (hstep : ∀ st sid pair day, P st → P (processDay fetchFn sid pair st day)) :
    ∀ (sm : List (Nat × String)) (st : RunState), P st → P (prepare_data fetchFn s e sm st) := by
  intro sm st hst
  unfold prepare_data
  apply foldl_inv _ P ?_ sm st hst
  intro st sp hst
  unfold processSid
  exact foldl_inv _ P (fun st day h => hstep st sp.1 sp.2 day h) _ st hst

/-- As `prepare_data_inv`, but the step hypothesis may use that the sid
map entry and the day belong to the run. -/
theorem prepare_data_inv_mem (fetchFn : FetchFn) (s e : Nat) (sm : List (Nat × String))
    (P : RunState → Prop)
    (hstep : ∀ st sid pair day, (sid, pair) ∈ sm → day ∈ dateRangeLeft s e →
      P st → P (processDay fetchFn sid pair st day)) :
    ∀ st : RunState, P st → P (prepare_data fetchFn s e sm st) := by
  intro st hst
  unfold prepare_data
  apply foldl_inv_mem _ P sm ?_ st hst
  intro st sp hsp hst
  unfold processSid
  exact foldl_inv_mem _ P _
    (fun st day hday h => hstep st sp.1 sp.2 day (by rwa [← Prod.mk.eta (p := sp)] at hsp) hday h)
    st hst

/-- Establish `R` at the step that processes a given `(sid, pair)` and
`day` of the run, then keep it. -/
theorem prepare_data_estab (fetchFn : FetchFn) (s e : Nat) (sm : List (Nat × String))
    (P R : RunState → Prop) (sid : Nat) (pair : String) (day : Nat)
    (hmem : (sid, pair) ∈ sm) (hday : day ∈ dateRangeLeft s e)
    (hP : ∀ st sid' pair' day', P st → P (processDay fetchFn sid' pair' st day'))
    (hR : ∀ st sid' pair' day', R st → R (processDay fetchFn sid' pair' st day'))
    (hE : ∀ st, P st → R (processDay fetchFn sid pair st day)) :
    ∀ st : RunState, P st → R (prepare_data fetchFn s e sm st) := by
  intro st hst
  unfold prepare_data
  apply foldl_estab _ P R (sid, pair) ?_ ?_ ?_ sm hmem st hst
  · intro st sp hst
    unfold processSid
    exact foldl_inv _ P (fun st day h => hP st sp.1 sp.2 day h) _ st hst
  · intro st sp hst
    unfold processSid
    exact foldl_inv _ R (fun st day h => hR st sp.1 sp.2 day h) _ st hst
  · intro st hst
    unfold processSid
    exact foldl_estab _ P R day (fun st d h => hP st sid pair d h)
      (fun st d h => hR st sid pair d h) (fun st h => hE st h) _ hday st hst

theorem processDay_cache_hit {fetchFn : FetchFn} {sid : Nat} {pair : String} {st : RunState}
    {day : Nat} {v : List CandleRow} (h : cacheFind st.cache (dayKey sid day) = some v) :
    (processDay fetchFn sid pair st day).cache = st.cache := by
  rw [processDay_hit h]

theorem processDay_fetches_hit {fetchFn : FetchFn} {sid : Nat} {pair : String} {st : RunState}
    {day : Nat} {v : List CandleRow} (h : cacheFind st.cache (dayKey sid day) = some v) :
    (processDay fetchFn sid pair st day).fetches = st.fetches := by
  rw [processDay_hit h]

theorem processDay_visits_hit {fetchFn : FetchFn} {sid : Nat} {pair : String} {st : RunState}
    {day : Nat} {v : List CandleRow} (h : cacheFind st.cache (dayKey sid day) = some v) :
    (processDay fetchFn sid pair st day).visits = st.visits ++ [⟨sid, day, v⟩] := by
  rw [processDay_hit h]

theorem processDay_cache_miss {fetchFn : FetchFn} {sid : Nat} {pair : String} {st : RunState}
    {day : Nat} (h : cacheFind st.cache (dayKey sid day) = none) :
    (processDay fetchFn sid pair st day).cache =
      st.cache ++ [(dayKey sid day, make_candle_stick (fetchFn pair day (day + 86400 - 1)))] := by
  rw [processDay_miss h]

theorem processDay_fetches_miss {fetchFn : FetchFn} {sid : Nat} {pair : String} {st : RunState}
    {day : Nat} (h : cacheFind st.cache (dayKey sid day) = none) :
    (processDay fetchFn sid pair st day).fetches =
      st.fetches ++ [⟨dayKey sid day, pair, day, day + 86400 - 1⟩] := by
  rw [processDay_miss h]

theorem processDay_visits_miss {fetchFn : FetchFn} {sid : Nat} {pair : String} {st : RunState}
    {day : Nat} (h : cacheFind st.cache (dayKey sid day) = none) :
    (processDay fetchFn sid pair st day).visits =
      st.visits ++ [⟨sid, day, make_candle_stick (fetchFn pair day (day + 86400 - 1))⟩] := by
  rw [processDay_miss h]

theorem cacheFind_append_single_ne {c : List (String × List CandleRow)} {k k' : String}
    (h : k' ≠ k) (fr : List CandleRow) :
    cacheFind (c ++ [(k', fr)]) k = cacheFind c k := by
  cases hc : cacheFind c k with
  | some v => rw [cacheFind_append_some hc]
  | none => rw [cacheFind_append_none hc, cacheFind_singleton_ne h]

/-- A cached value survives any single day step unchanged. -/
theorem step_cache_mono {fetchFn : FetchFn} {sid : Nat} {pair : String} {day : Nat}
    (st : RunState) {k : String} {v : List CandleRow} (h : cacheFind st.cache k = some v) :
    cacheFind (processDay fetchFn sid pair st day).cache k = some v := by
  cases hc : cacheFind st.cache (dayKey sid day) with
  | some fr => rw [processDay_cache_hit hc]; exact h
  | none => rw [processDay_cache_miss hc]; exact cacheFind_append_some h _

/-- The per-key miss/fetch invariant: a key is either still unseen with no
fetch issued for it, or cached with exactly one fetch issued for it. -/
theorem step_missOrOnce (fetchFn : FetchFn) (k : String) :
    ∀ (st : RunState) (sid : Nat) (pair : String) (day : Nat),
      ((cacheFind st.cache k = none ∧ countK st.fetches k = 0) ∨
        (∃ v, cacheFind st.cache k = some v ∧ countK st.fetches k = 1)) →
      ((cacheFind (processDay fetchFn sid pair st day).cache k = none ∧
          countK (processDay fetchFn sid pair st day).fetches k = 0) ∨
        (∃ v, cacheFind (processDay fetchFn sid pair st day).cache k = some v ∧
          countK (processDay fetchFn sid pair st day).fetches k = 1)) := by
  intro st sid pair day hP
  cases hc : cacheFind st.cache (dayKey sid day) with
  | some fr =>
    rw [processDay_cache_hit hc, processDay_fetches_hit hc]
    exact hP
  | none =>
    rw [processDay_cache_miss hc, processDay_fetches_miss hc]
    by_cases hk : dayKey sid day = k
    · subst hk
      rcases hP with ⟨hnone, hcnt⟩ | ⟨v, hsome, -⟩
      · right
        refine ⟨make_candle_stick (fetchFn pair day (day + 86400 - 1)), ?_, ?_⟩
        · rw [cacheFind_append_none hnone, cacheFind_singleton_self]
        · rw [countK_append, hcnt, countK_singleton_self _ rfl]
      · rw [hc] at hsome
        cases hsome
    · rw [cacheFind_append_single_ne hk, countK_append, countK_singleton_ne _ hk]
      rcases hP with ⟨hnone, hcnt⟩ | ⟨v, hsome, hcnt⟩
      · exact Or.inl ⟨hnone, by omega⟩
      · exact Or.inr ⟨v, hsome, by omega⟩

/-- Once a key is cached with one fetch on record, that stays so. -/
theorem step_cachedOnce (fetchFn : FetchFn) (k : String) :
    ∀ (st : RunState) (sid : Nat) (pair : String) (day : Nat),
      (∃ v, cacheFind st.cache k = some v ∧ countK st.fetches k = 1) →
      (∃ v, cacheFind (processDay fetchFn sid pair st day).cache k = some v ∧
        countK (processDay fetchFn sid pair st day).fetches k = 1) := by
  rintro st sid pair day ⟨v, hv, hcnt⟩
  refine ⟨v, step_cache_mono st hv, ?_⟩
  cases hc : cacheFind st.cache (dayKey sid day) with
  | some fr => rw [processDay_fetches_hit hc]; exact hcnt
  | none =>
    have hne : dayKey sid day ≠ k := by
      intro he
      rw [he, hv] at hc
      cases hc
    rw [processDay_fetches_miss hc, countK_append, countK_singleton_ne _ hne]
    omega

/-- A key already cached at a fixed value sees no further fetch. -/
theorem step_cachedNoFetch (fetchFn : FetchFn) (k : String) (v : List CandleRow) :
    ∀ (st : RunState) (sid : Nat) (pair : String) (day : Nat),
      (cacheFind st.cache k = some v ∧ countK st.fetches k = 0) →
      (cacheFind (processDay fetchFn sid pair st day).cache k = some v ∧
        countK (processDay fetchFn sid pair st day).fetches k = 0) := by
  rintro st sid pair day ⟨hv, hcnt⟩
  refine ⟨step_cache_mono st hv, ?_⟩
  cases hc : cacheFind st.cache (dayKey sid day) with
  | some fr => rw [processDay_fetches_hit hc]; exact hcnt
  | none =>
    have hne : dayKey sid day ≠ k := by
      intro he
      rw [he, hv] at hc
      cases hc
    rw [processDay_fetches_miss hc, countK_append, countK_singleton_ne _ hne]
    omega

/-- Every yielded element for a key carries the value cached under that
key. -/
theorem step_visitCache (fetchFn : FetchFn) (k : String) :
    ∀ (st : RunState) (sid : Nat) (pair : String) (day : Nat),
      (∀ w ∈ st.visits, dayKey w.sid w.day = k → cacheFind st.cache k = some w.frame) →
      (∀ w ∈ (processDay fetchFn sid pair st day).visits, dayKey w.sid w.day = k →
        cacheFind (processDay fetchFn sid pair st day).cache k = some w.frame) := by
  intro st sid pair day hW w hw hkey
  cases hc : cacheFind st.cache (dayKey sid day) with
  | some fr =>
    rw [processDay_visits_hit hc] at hw
    rw [processDay_cache_hit hc]
    rcases List.mem_append.mp hw with hw | hw
    · exact hW w hw hkey
    · have hwv : w = ⟨sid, day, fr⟩ := by simpa using hw
      subst hwv
      rw [← hkey]
      exact hc
  | none =>
    rw [processDay_visits_miss hc] at hw
    rw [processDay_cache_miss hc]
    rcases List.mem_append.mp hw with hw | hw
    · exact cacheFind_append_some (hW w hw hkey) _
    · have hwv : w = ⟨sid, day, make_candle_stick (fetchFn pair day (day + 86400 - 1))⟩ := by
        simpa using hw
      subst hwv
      rw [← hkey]
      dsimp only
      rw [cacheFind_append_none hc, cacheFind_singleton_self]

/-- Yielded elements persist across later steps. -/
theorem step_visit_mono (fetchFn : FetchFn) (w : Visit) :
    ∀ (st : RunState) (sid : Nat) (pair : String) (day : Nat),
      w ∈ st.visits → w ∈ (processDay fetchFn sid pair st day).visits := by
  intro st sid pair day hw
  cases hc : cacheFind st.cache (dayKey sid day) with
  | some fr => rw [processDay_visits_hit hc]; exact List.mem_append_left _ hw
  | none => rw [processDay_visits_miss hc]; exact List.mem_append_left _ hw

/-- Processing `(sid, day)` yields an element for `(sid, day)`. -/
theorem step_visit_estab (fetchFn : FetchFn) (sid : Nat) (pair : String) (day : Nat) :
    ∀ st : RunState, ∃ fr, Visit.mk sid day fr ∈ (processDay fetchFn sid pair st day).visits := by
  intro st
  cases hc : cacheFind st.cache (dayKey sid day) with
  | some fr =>
    rw [processDay_visits_hit hc]
    exact ⟨fr, List.mem_append_right _ (List.mem_singleton.mpr rfl)⟩
  | none =>
    rw [processDay_visits_miss hc]
    exact ⟨_, List.mem_append_right _ (List.mem_singleton.mpr rfl)⟩

theorem nodup_fst_pair_eq {l : List (Nat × String)} (hnd : (l.map Prod.fst).Nodup)
    {a : Nat} {b c : String} (h1 : (a, b) ∈ l) (h2 : (a, c) ∈ l) : b = c := by
  induction l with
  | nil => cases h1
  | cons p t ih =>
    rw [List.map_cons, List.nodup_cons] at hnd
    rcases List.mem_cons.mp h1 with heq1 | h1'
    · rcases List.mem_cons.mp h2 with heq2 | h2'
      · exact congrArg Prod.snd (heq1.trans heq2.symm)
      · exfalso
        apply hnd.1
        rw [← heq1]
        simpa using List.mem_map_of_mem Prod.fst h2'
    · rcases List.mem_cons.mp h2 with heq2 | h2'
      · exfalso
        apply hnd.1
        rw [← heq2]
        simpa using List.mem_map_of_mem Prod.fst h1'
      · exact ih hnd.2 h1' h2'

/-! ## The per-claim pipeline theorems -/

theorem processDay_visits_proj (fetchFn : FetchFn) (sid : Nat) (pair : String) (st : RunState)
    (day : Nat) :
    (processDay fetchFn sid pair st day).visits.map (fun w => (w.sid, w.day)) =
      st.visits.map (fun w => (w.sid, w.day)) ++ [(sid, day)] := by
  cases hc : cacheFind st.cache (dayKey sid day) with
  | some fr => rw [processDay_visits_hit hc]; simp
  | none => rw [processDay_visits_miss hc]; simp

theorem processSid_visits_proj (fetchFn : FetchFn) (days : List Nat) (st : RunState)
    (sp : Nat × String) :
    (processSid fetchFn days st sp).visits.map (fun w => (w.sid, w.day)) =
      st.visits.map (fun w => (w.sid, w.day)) ++ days.map (fun d => (sp.1, d)) := by
  unfold processSid
  induction days generalizing st with
  | nil => simp
  | cons d ds ih =>
    rw [List.foldl_cons, ih, processDay_visits_proj]
    simp

theorem prepare_data_visits_proj (fetchFn : FetchFn) (s e : Nat) (sm : List (Nat × String))
    (st : RunState) :
    (prepare_data fetchFn s e sm st).visits.map (fun w => (w.sid, w.day)) =
      st.visits.map (fun w => (w.sid, w.day)) ++
        sm.flatMap (fun p => (dateRangeLeft s e).map (fun d => (p.1, d))) := by
  unfold prepare_data
  induction sm generalizing st with
  | nil => simp
  | cons sp sms ih =>
    rw [List.foldl_cons, ih, processSid_visits_proj]
    simp

/-- C6: the elements of `prepare_data` are produced asset-major and
day-minor: the `(sid, day)` trace is exactly the sid map in iteration
order, with the full day range, strictly ascending, repeated under each
sid. -/
theorem prepare_data_ordering (fetchFn : FetchFn) (s e : Nat) (sm : List (Nat × String))
    (c0 : List (String × List CandleRow)) :
    (runOnce fetchFn s e sm c0).visits.map (fun w => (w.sid, w.day)) =
      sm.flatMap (fun p => (dateRangeLeft s e).map (fun d => (p.1, d))) ∧
    (dateRangeLeft s e).Pairwise (· < ·) := by
  constructor
  · have h := prepare_data_visits_proj fetchFn s e sm (initState c0)
    simpa [runOnce, initState] using h
  · unfold dateRangeLeft
    exact (List.pairwise_lt_range _).map _ (fun a b h => by omega)

/-- C4: the day loop covers exactly the half-open interval
`[start, end)` at one-day stride — `start` included, `end` excluded. -/
theorem prepare_data_day_range (fetchFn : FetchFn) (s e : Nat) (sm : List (Nat × String))
    (c0 : List (String × List CandleRow)) (hse : s < e) :
    (runOnce fetchFn s e sm c0).visits.map (fun w => (w.sid, w.day)) =
      sm.flatMap (fun p => (dateRangeLeft s e).map (fun d => (p.1, d))) ∧
    (∀ d, d ∈ dateRangeLeft s e ↔ s ≤ d ∧ d < e ∧ (d - s) % 86400 = 0) ∧
    s ∈ dateRangeLeft s e ∧ e ∉ dateRangeLeft s e := by
  have hmem : ∀ d, d ∈ dateRangeLeft s e ↔ s ≤ d ∧ d < e ∧ (d - s) % 86400 = 0 := by
    intro d
    rw [dateRangeLeft_mem]
    constructor
    · rintro ⟨k, hk, rfl⟩
      refine ⟨by omega, by omega, by omega⟩
    · rintro ⟨h1, h2, h3⟩
      exact ⟨(d - s) / 86400, by omega, by omega⟩
  refine ⟨?_, hmem, ?_, ?_⟩
  · have h := prepare_data_visits_proj fetchFn s e sm (initState c0)
    simpa [runOnce, initState] using h
  · exact (hmem s).mpr ⟨le_rfl, hse, by omega⟩
  · intro h
    have := (hmem e).mp h
    omega

/-- Witness for C4: requesting `[2016-01-01, 2016-01-03)` yields exactly
the two days 2016-01-01 and 2016-01-02, never 2016-01-03. -/
theorem prepare_data_day_range_witness :
    dateRangeLeft (16801 * 86400) (16803 * 86400) = [16801 * 86400, 16802 * 86400] ∧
    dayKey 0 (16801 * 86400) = "0_2016-01-01" ∧
    dayKey 0 (16802 * 86400) = "0_2016-01-02" ∧
    dayKey 0 (16803 * 86400) = "0_2016-01-03" ∧
    ((runOnce (fun _ _ _ => []) (16801 * 86400) (16803 * 86400) [(0, "USDT_ETH")] []).visits.map
        (fun w => (w.sid, w.day)) =
      ([(0, "USDT_ETH")] : List (Nat × String)).flatMap
        (fun p => (dateRangeLeft (16801 * 86400) (16803 * 86400)).map (fun d => (p.1, d))) ∧
    (∀ d, d ∈ dateRangeLeft (16801 * 86400) (16803 * 86400) ↔
      16801 * 86400 ≤ d ∧ d < 16803 * 86400 ∧ (d - 16801 * 86400) % 86400 = 0) ∧
    16801 * 86400 ∈ dateRangeLeft (16801 * 86400) (16803 * 86400) ∧
    16803 * 86400 ∉ dateRangeLeft (16801 * 86400) (16803 * 86400)) :=
  ⟨by decide, by decide, by decide, by decide,
    prepare_data_day_range (fun _ _ _ => []) (16801 * 86400) (16803 * 86400) [(0, "USDT_ETH")] []
      (by decide)⟩

/-- C5: every fetch the pipeline issues covers the closed interval
`[day_start, day_start + 1 day − 1 second]`, the end instant being one
second before the next day. -/
theorem fetch_interval_closed (fetchFn : FetchFn) (s e : Nat) (sm : List (Nat × String))
    (c0 : List (String × List CandleRow)) (ev : FetchEvent)
    (hev : ev ∈ (runOnce fetchFn s e sm c0).fetches) :
    ev.stop + 1 = ev.start + 86400 ∧ ev.start ∈ dateRangeLeft s e := by
  have hinv := prepare_data_inv_mem fetchFn s e sm
    (fun st => ∀ ev ∈ st.fetches, ev.stop + 1 = ev.start + 86400 ∧ ev.start ∈ dateRangeLeft s e)
    ?_ (initState c0) ?_
  · exact hinv ev hev
  · intro st sid pair day hsp hday hP ev hev
    cases hc : cacheFind st.cache (dayKey sid day) with
    | some fr =>
      rw [processDay_fetches_hit hc] at hev
      exact hP ev hev
    | none =>
      rw [processDay_fetches_miss hc] at hev
      rcases List.mem_append.mp hev with hev | hev
      · exact hP ev hev
      · have hevv : ev = ⟨dayKey sid day, pair, day, day + 86400 - 1⟩ := by simpa using hev
        subst hevv
        refine ⟨?_, hday⟩
        dsimp only
        omega
  · intro ev hev
    cases hev

/-- Witness for C5 at a concrete one-day run that misses the cache. -/
theorem fetch_interval_closed_witness :
    (⟨"0_1970-01-01", "USDT_ETH", 0, 86399⟩ : FetchEvent).stop + 1 =
        (⟨"0_1970-01-01", "USDT_ETH", 0, 86399⟩ : FetchEvent).start + 86400 ∧
      (⟨"0_1970-01-01", "USDT_ETH", 0, 86399⟩ : FetchEvent).start ∈ dateRangeLeft 0 86400 :=
  fetch_interval_closed (fun _ _ _ => []) 0 86400 [(0, "USDT_ETH")] []
    ⟨"0_1970-01-01", "USDT_ETH", 0, 86399⟩ (by decide)

/-- C2: for a fixed `(sid, day)` key not initially cached, two successive
runs fetch exactly once for that key, never overwrite the stored frame,
and both runs yield that same frame for the key; whatever was in the
caller's cache initially also survives both runs untouched. -/
theorem cache_idempotent_single_fetch (fetchFn : FetchFn) (s e : Nat)
    (sm : List (Nat × String)) (c0 : List (String × List CandleRow)) (sid : Nat) (pair : String)
    (day : Nat) (hmem : (sid, pair) ∈ sm) (hday : day ∈ dateRangeLeft s e)
    (hmiss : cacheFind c0 (dayKey sid day) = none) :
    ∃ v,
      cacheFind (runOnce fetchFn s e sm c0).cache (dayKey sid day) = some v ∧
      cacheFind (runTwice fetchFn s e sm c0).cache (dayKey sid day) = some v ∧
      Visit.mk sid day v ∈ (runOnce fetchFn s e sm c0).visits ∧
      Visit.mk sid day v ∈ (runTwice fetchFn s e sm c0).visits ∧
      (∀ fr, Visit.mk sid day fr ∈ (runOnce fetchFn s e sm c0).visits ∨
          Visit.mk sid day fr ∈ (runTwice fetchFn s e sm c0).visits → fr = v) ∧
      countK ((runOnce fetchFn s e sm c0).fetches ++ (runTwice fetchFn s e sm c0).fetches)
        (dayKey sid day) = 1 ∧
      (∀ k v0, cacheFind c0 k = some v0 →
        cacheFind (runOnce fetchFn s e sm c0).cache k = some v0 ∧
        cacheFind (runTwice fetchFn s e sm c0).cache k = some v0) := by
  unfold runTwice runOnce
  have hest : ∀ st, ((cacheFind st.cache (dayKey sid day) = none ∧
        countK st.fetches (dayKey sid day) = 0) ∨
      (∃ v, cacheFind st.cache (dayKey sid day) = some v ∧
        countK st.fetches (dayKey sid day) = 1)) →
      (∃ v, cacheFind (processDay fetchFn sid pair st day).cache (dayKey sid day) = some v ∧
        countK (processDay fetchFn sid pair st day).fetches (dayKey sid day) = 1) := by
    intro st hP
    rcases hP with ⟨hnone, hcnt⟩ | ⟨v, hsome, hcnt⟩
    · refine ⟨make_candle_stick (fetchFn pair day (day + 86400 - 1)), ?_, ?_⟩
      · rw [processDay_cache_miss hnone, cacheFind_append_none hnone, cacheFind_singleton_self]
      · rw [processDay_fetches_miss hnone, countK_append, hcnt, countK_singleton_self _ rfl]
    · exact step_cachedOnce fetchFn (dayKey sid day) st sid pair day ⟨v, hsome, hcnt⟩
  have hA := prepare_data_estab fetchFn s e sm
    (fun st => (cacheFind st.cache (dayKey sid day) = none ∧
        countK st.fetches (dayKey sid day) = 0) ∨
      (∃ v, cacheFind st.cache (dayKey sid day) = some v ∧
        countK st.fetches (dayKey sid day) = 1))
    (fun st => ∃ v, cacheFind st.cache (dayKey sid day) = some v ∧
      countK st.fetches (dayKey sid day) = 1)
    sid pair day hmem hday
    (fun st sid' pair' day' h => step_missOrOnce fetchFn (dayKey sid day) st sid' pair' day' h)
    (fun st sid' pair' day' h => step_cachedOnce fetchFn (dayKey sid day) st sid' pair' day' h)
    hest (initState c0) (Or.inl ⟨hmiss, rfl⟩)
  obtain ⟨v, hv1, hcnt1⟩ := hA
  have hB := prepare_data_inv fetchFn s e
    (fun st => cacheFind st.cache (dayKey sid day) = some v ∧
      countK st.fetches (dayKey sid day) = 0)
    (fun st sid' pair' day' h => step_cachedNoFetch fetchFn (dayKey sid day) v st sid' pair' day' h)
    sm (initState (prepare_data fetchFn s e sm (initState c0)).cache) ⟨hv1, rfl⟩
  obtain ⟨hv2, hcnt2⟩ := hB
  have hW1 := prepare_data_inv fetchFn s e
    (fun st => ∀ w ∈ st.visits, dayKey w.sid w.day = dayKey sid day →
      cacheFind st.cache (dayKey sid day) = some w.frame)
    (fun st sid' pair' day' h => step_visitCache fetchFn (dayKey sid day) st sid' pair' day' h)
    sm (initState c0) (by intro w hw; cases hw)
  have hW2 := prepare_data_inv fetchFn s e
    (fun st => ∀ w ∈ st.visits, dayKey w.sid w.day = dayKey sid day →
      cacheFind st.cache (dayKey sid day) = some w.frame)
    (fun st sid' pair' day' h => step_visitCache fetchFn (dayKey sid day) st sid' pair' day' h)
    sm (initState (prepare_data fetchFn s e sm (initState c0)).cache) (by intro w hw; cases hw)
  have hE1 := prepare_data_estab fetchFn s e sm (fun _ => True)
    (fun st => ∃ fr, Visit.mk sid day fr ∈ st.visits) sid pair day hmem hday
    (fun _ _ _ _ _ => trivial)
    (fun st sid' pair' day' ⟨fr, hfr⟩ => ⟨fr, step_visit_mono fetchFn _ st sid' pair' day' hfr⟩)
    (fun st _ => step_visit_estab fetchFn sid pair day st) (initState c0) trivial
  have hE2 := prepare_data_estab fetchFn s e sm (fun _ => True)
    (fun st => ∃ fr, Visit.mk sid day fr ∈ st.visits) sid pair day hmem hday
    (fun _ _ _ _ _ => trivial)
    (fun st sid' pair' day' ⟨fr, hfr⟩ => ⟨fr, step_visit_mono fetchFn _ st sid' pair' day' hfr⟩)
    (fun st _ => step_visit_estab fetchFn sid pair day st)
    (initState (prepare_data fetchFn s e sm (initState c0)).cache) trivial
  obtain ⟨f1, hf1⟩ := hE1
  obtain ⟨f2, hf2⟩ := hE2
  have hf1v : f1 = v := by
    have h := hW1 (Visit.mk sid day f1) hf1 rfl
    rw [hv1] at h
    injection h with h
    exact h.symm
  have hf2v : f2 = v := by
    have h := hW2 (Visit.mk sid day f2) hf2 rfl
    rw [hv2] at h
    injection h with h
    exact h.symm
  refine ⟨v, hv1, hv2, hf1v ▸ hf1, hf2v ▸ hf2, ?_, ?_, ?_⟩
  · intro fr hfr
    rcases hfr with hfr | hfr
    · have h := hW1 (Visit.mk sid day fr) hfr rfl
      rw [hv1] at h
      injection h with h
      exact h.symm
    · have h := hW2 (Visit.mk sid day fr) hfr rfl
      rw [hv2] at h
      injection h with h
      exact h.symm
  · rw [countK_append, hcnt1, hcnt2]
  · intro k v0 h0
    have h1 : cacheFind (prepare_data fetchFn s e sm (initState c0)).cache k = some v0 :=
      prepare_data_inv fetchFn s e (fun st => cacheFind st.cache k = some v0)
        (fun st sid' pair' day' h => step_cache_mono st h) sm (initState c0) h0
    exact ⟨h1, prepare_data_inv fetchFn s e (fun st => cacheFind st.cache k = some v0)
      (fun st sid' pair' day' h => step_cache_mono st h) sm
      (initState (prepare_data fetchFn s e sm (initState c0)).cache) h1⟩

/-- Witness for C2 on a one-asset one-day run. -/
theorem cache_idempotent_single_fetch_witness :
    ∃ v,
      cacheFind (runOnce (fun _ _ _ => []) 0 86400 [(7, "USDT_ETH")] []).cache
          (dayKey 7 0) = some v ∧
      cacheFind (runTwice (fun _ _ _ => []) 0 86400 [(7, "USDT_ETH")] []).cache
          (dayKey 7 0) = some v ∧
      Visit.mk 7 0 v ∈ (runOnce (fun _ _ _ => []) 0 86400 [(7, "USDT_ETH")] []).visits ∧
      Visit.mk 7 0 v ∈ (runTwice (fun _ _ _ => []) 0 86400 [(7, "USDT_ETH")] []).visits ∧
      (∀ fr, Visit.mk 7 0 fr ∈ (runOnce (fun _ _ _ => []) 0 86400 [(7, "USDT_ETH")] []).visits ∨
          Visit.mk 7 0 fr ∈ (runTwice (fun _ _ _ => []) 0 86400 [(7, "USDT_ETH")] []).visits →
          fr = v) ∧
      countK ((runOnce (fun _ _ _ => []) 0 86400 [(7, "USDT_ETH")] []).fetches ++
          (runTwice (fun _ _ _ => []) 0 86400 [(7, "USDT_ETH")] []).fetches) (dayKey 7 0) = 1 ∧
      (∀ k v0, cacheFind [] k = some v0 →
        cacheFind (runOnce (fun _ _ _ => []) 0 86400 [(7, "USDT_ETH")] []).cache k = some v0 ∧
        cacheFind (runTwice (fun _ _ _ => []) 0 86400 [(7, "USDT_ETH")] []).cache k = some v0) :=
  cache_idempotent_single_fetch (fun _ _ _ => []) 0 86400 [(7, "USDT_ETH")] [] 7 "USDT_ETH" 0
    (by decide) (by decide) (by decide)

/-- C7: a day whose fetch returns no trades yields the empty bar frame
(no buckets at all, so every present bucket vacuously has volume `0` and
absent prices), the empty frame is cached under the day's key, and a
second run does not refetch that key. -/
theorem empty_day_cached_no_refetch (fetchFn : FetchFn) (s e : Nat)
    (sm : List (Nat × String)) (c0 : List (String × List CandleRow)) (sid : Nat) (pair : String)
    (day : Nat) (hnodup : (sm.map Prod.fst).Nodup) (hmem : (sid, pair) ∈ sm)
    (hday : day ∈ dateRangeLeft s e) (hmiss : cacheFind c0 (dayKey sid day) = none)
    (hempty : fetchFn pair day (day + 86400 - 1) = []) :
    make_candle_stick (fetchFn pair day (day + 86400 - 1)) = [] ∧
    (∀ row ∈ make_candle_stick (fetchFn pair day (day + 86400 - 1)),
      row.volume = 0 ∧ row.open_ = none ∧ row.high = none ∧ row.low = none ∧
        row.close = none) ∧
    cacheFind (runOnce fetchFn s e sm c0).cache (dayKey sid day) = some [] ∧
    Visit.mk sid day [] ∈ (runOnce fetchFn s e sm c0).visits ∧
    countK (runTwice fetchFn s e sm c0).fetches (dayKey sid day) = 0 := by
  unfold runTwice runOnce
  have hmk : make_candle_stick (fetchFn pair day (day + 86400 - 1)) = [] := by
    rw [hempty]
    rfl
  have hstep2 : ∀ (st : RunState) (sid' : Nat) (pair' : String) (day' : Nat),
      (sid', pair') ∈ sm → day' ∈ dateRangeLeft s e →
      (cacheFind st.cache (dayKey sid day) = none ∨
        cacheFind st.cache (dayKey sid day) = some []) →
      (cacheFind (processDay fetchFn sid' pair' st day').cache (dayKey sid day) = none ∨
        cacheFind (processDay fetchFn sid' pair' st day').cache (dayKey sid day) = some []) := by
    intro st sid' pair' day' hsp hday' hP
    cases hc : cacheFind st.cache (dayKey sid' day') with
    | some fr => rw [processDay_cache_hit hc]; exact hP
    | none =>
      rw [processDay_cache_miss hc]
      by_cases hk : dayKey sid' day' = dayKey sid day
      · obtain ⟨hsid, hdiv⟩ := dayKey_inj hk
        subst hsid
        have hdayeq : day' = day := dateRangeLeft_day_inj hday' hday hdiv
        subst hdayeq
        have hpair : pair' = pair := nodup_fst_pair_eq hnodup hsp hmem
        subst hpair
        right
        rw [hk] at hc ⊢
        rw [cacheFind_append_none hc]
        rw [hmk, cacheFind_singleton_self]
      · rw [cacheFind_append_single_ne hk]
        exact hP
  have hP2 := prepare_data_inv_mem fetchFn s e sm
    (fun st => cacheFind st.cache (dayKey sid day) = none ∨
      cacheFind st.cache (dayKey sid day) = some [])
    hstep2 (initState c0) (Or.inl hmiss)
  have hsest : ∀ st : RunState, True →
      (∃ v, cacheFind (processDay fetchFn sid pair st day).cache (dayKey sid day) = some v) := by
    intro st _
    cases hc : cacheFind st.cache (dayKey sid day) with
    | some fr => exact ⟨fr, step_cache_mono st hc⟩
    | none =>
      refine ⟨make_candle_stick (fetchFn pair day (day + 86400 - 1)), ?_⟩
      rw [processDay_cache_miss hc, cacheFind_append_none hc, cacheFind_singleton_self]
  have hsome := prepare_data_estab fetchFn s e sm
    (fun _ => True)
    (fun st => ∃ v, cacheFind st.cache (dayKey sid day) = some v)
    sid pair day hmem hday (fun _ _ _ _ _ => trivial)
    (fun st sid' pair' day' hv => ⟨hv.choose, step_cache_mono st hv.choose_spec⟩)
    hsest (initState c0) trivial
  obtain ⟨v, hv⟩ := hsome
  have hveq : cacheFind (prepare_data fetchFn s e sm (initState c0)).cache (dayKey sid day) =
      some [] := by
    rcases hP2 with h | h
    · rw [hv] at h
      cases h
    · exact h
  have hW1 := prepare_data_inv fetchFn s e
    (fun st => ∀ w ∈ st.visits, dayKey w.sid w.day = dayKey sid day →
      cacheFind st.cache (dayKey sid day) = some w.frame)
    (fun st sid' pair' day' h => step_visitCache fetchFn (dayKey sid day) st sid' pair' day' h)
    sm (initState c0) (by intro w hw; cases hw)
  have hE1 := prepare_data_estab fetchFn s e sm (fun _ => True)
    (fun st => ∃ fr, Visit.mk sid day fr ∈ st.visits) sid pair day hmem hday
    (fun _ _ _ _ _ => trivial)
    (fun st sid' pair' day' ⟨fr, hfr⟩ => ⟨fr, step_visit_mono fetchFn _ st sid' pair' day' hfr⟩)
    (fun st _ => step_visit_estab fetchFn sid pair day st) (initState c0) trivial
  obtain ⟨f1, hf1⟩ := hE1
  have hf1v : f1 = [] := by
    have h := hW1 (Visit.mk sid day f1) hf1 rfl
    rw [hveq] at h
    injection h with h
    exact h.symm
  have hQ := prepare_data_inv fetchFn s e
    (fun st => cacheFind st.cache (dayKey sid day) = some [] ∧
      countK st.fetches (dayKey sid day) = 0)
    (fun st sid' pair' day' h =>
      step_cachedNoFetch fetchFn (dayKey sid day) [] st sid' pair' day' h)
    sm (initState (prepare_data fetchFn s e sm (initState c0)).cache) ⟨hveq, rfl⟩
  refine ⟨hmk, ?_, hveq, hf1v ▸ hf1, hQ.2⟩
  intro row hrow
  rw [hmk] at hrow
  cases hrow

/-- Witness for C7 on a one-asset one-day run with an empty fetch. -/
theorem empty_day_cached_no_refetch_witness :
    make_candle_stick ((fun (_ : String) (_ _ : Nat) => ([] : List Trade)) "USDT_ETH" 0
        (0 + 86400 - 1)) = [] ∧
    (∀ row ∈ make_candle_stick ((fun (_ : String) (_ _ : Nat) => ([] : List Trade)) "USDT_ETH" 0
        (0 + 86400 - 1)),
      row.volume = 0 ∧ row.open_ = none ∧ row.high = none ∧ row.low = none ∧
        row.close = none) ∧
    cacheFind (runOnce (fun _ _ _ => []) 0 86400 [(7, "USDT_ETH")] []).cache
        (dayKey 7 0) = some [] ∧
    Visit.mk 7 0 [] ∈ (runOnce (fun _ _ _ => []) 0 86400 [(7, "USDT_ETH")] []).visits ∧
    countK (runTwice (fun _ _ _ => []) 0 86400 [(7, "USDT_ETH")] []).fetches (dayKey 7 0) = 0 :=
  empty_day_cached_no_refetch (fun _ _ _ => []) 0 86400 [(7, "USDT_ETH")] [] 7 "USDT_ETH" 0
    (by decide) (by decide) (by decide) (by decide) (by decide)

/-! ## Symbol-resolution theorems (C1, C8) -/

theorem dictUpsert_keys (m : List (String × String)) (k v : String) :
    (dictUpsert m k v).map Prod.fst =
      if m.any (fun p => p.1 == k) then m.map Prod.fst else m.map Prod.fst ++ [k] := by
  unfold dictUpsert
  split
  · simp only [List.map_map]
    apply List.map_congr_left
    intro p _
    dsimp
    split <;> rfl
  · simp

theorem asset_pair_map_keys_nodup (pairs : List String) :
    ((asset_pair_map pairs).map Prod.fst).Nodup := by
  unfold asset_pair_map
  refine foldl_inv (fun m pair => dictUpsert m (splitBase pair) pair)
    (fun m => (m.map Prod.fst).Nodup) ?_ pairs [] ?_
  · intro m pair hm
    rw [dictUpsert_keys]
    split
    · exact hm
    · rename_i hany
      have hnotmem : splitBase pair ∉ m.map Prod.fst := by
        intro hk
        apply hany
        obtain ⟨p, hpm, hfst⟩ := List.mem_map.mp hk
        exact List.any_eq_true.mpr ⟨p, hpm, by simp [hfst]⟩
      simp [List.nodup_append, hm, hnotmem]
  · exact List.nodup_nil

theorem dictGet_of_mem : ∀ {m : List (String × String)} {k v : String},
    (m.map Prod.fst).Nodup → (k, v) ∈ m → dictGet m k = v := by
  intro m
  induction m with
  | nil => intro k v _ h; cases h
  | cons p t ih =>
    intro k v hnd hmem
    rw [List.map_cons, List.nodup_cons] at hnd
    rcases List.mem_cons.mp hmem with rfl | hmem'
    · simp [dictGet]
    · have hk : ¬(p.1 == k) = true := by
        intro hbeq
        exact hnd.1 ((beq_iff_eq.mp hbeq) ▸ List.mem_map_of_mem Prod.fst hmem')
      simp only [dictGet, List.find?_cons, hk]
      exact ih hnd.2 hmem'

theorem selectRows_map_fst (meta : Metadata) (ks : List String) :
    (selectRows meta ks).map Prod.fst = ks := by
  simp only [selectRows, List.map_map]
  exact List.map_congr_left (fun k _ => rfl) |>.trans (List.map_id ks)

theorem enumFromN_map_dictGet {β : Type _} :
    ∀ (rs : List (String × β)) (as : List (String × String)) (i : Nat)
      (A : List (String × String)),
      rs.map Prod.fst = as.map Prod.fst → (∀ p ∈ as, dictGet A p.1 = p.2) →
      (enumFromN i rs).map (fun p => (p.1, dictGet A p.2.1)) =
        enumFromN i (as.map Prod.snd) := by
  intro rs
  induction rs with
  | nil =>
    intro as i A hfst _
    have : as = [] := by
      cases as with
      | nil => rfl
      | cons a t => simp at hfst
    subst this
    rfl
  | cons r rt ih =>
    intro as i A hfst hget
    cases as with
    | nil => simp at hfst
    | cons a t =>
      simp only [List.map_cons, List.cons.injEq] at hfst
      simp only [enumFromN, List.map_cons, List.cons.injEq]
      constructor
      · rw [hfst.1, hget a (List.mem_cons_self a t)]
      · exact ih t (i + 1) A hfst.2 (fun p hp => hget p (List.mem_cons_of_mem a hp))

/-- Counterexample to C1 as stated: with the metadata source listing DASH
before ETH but the input pair list requesting ETH before DASH, the code
assigns id 0 to `USDT_ETH` (key order of the pair map, i.e. input order),
while the claimed metadata-source ordering would assign id 0 to
`USDT_DASH`. -/
theorem write_assets_meta_order_counterexample :
    (write_assets [("DASH", "Dash"), ("ETH", "Ethereum")] ["USDT_ETH", "USDT_DASH"]).2 =
      [(0, "USDT_ETH"), (1, "USDT_DASH")] ∧
    specSidMapMetaOrder [("DASH", "Dash"), ("ETH", "Ethereum")] ["USDT_ETH", "USDT_DASH"] =
      [(0, "USDT_DASH"), (1, "USDT_ETH")] ∧
    (write_assets [("DASH", "Dash"), ("ETH", "Ethereum")] ["USDT_ETH", "USDT_DASH"]).2 ≠
      specSidMapMetaOrder [("DASH", "Dash"), ("ETH", "Ethereum")] ["USDT_ETH", "USDT_DASH"] := by
  refine ⟨by decide, by decide, by decide⟩

/-- C1 as amended: the internal asset id assigned by `write_assets` is the
row position of the base currency in the key order of the pair map derived
from the input list (first-occurrence input order, NOT metadata-source
order), and the returned sid map sends exactly those consecutive ids to
the originating asset pairs. -/
theorem write_assets_id_assignment (meta : Metadata) (pairs : List String) :
    (write_assets meta pairs).1.map Prod.fst = (asset_pair_map pairs).map Prod.fst ∧
      (write_assets meta pairs).2 = enumFromN 0 ((asset_pair_map pairs).map Prod.snd) := by
  have h1 : (write_assets meta pairs).1 =
      selectRows meta ((asset_pair_map pairs).map Prod.fst) := rfl
  have h2 : (write_assets meta pairs).2 =
      (enumFromN 0 (selectRows meta ((asset_pair_map pairs).map Prod.fst))).map
        (fun p => (p.1, dictGet (asset_pair_map pairs) p.2.1)) := rfl
  rw [h1, h2]
  refine ⟨selectRows_map_fst meta _, ?_⟩
  apply enumFromN_map_dictGet _ (asset_pair_map pairs) 0 (asset_pair_map pairs)
    (selectRows_map_fst meta _)
  intro p hp
  exact dictGet_of_mem (asset_pair_map_keys_nodup pairs) (by simpa using hp)

/-- C8 is violated by the code: because `.ix` reindexes, a requested base
currency absent from the currency-metadata source does not raise a
`LookupError` — `write_assets` registers a NaN-named row for it, the
returned sid map still contains its pair, and the pipeline proceeds to
fetch trades for that pair.  Evaluated at the failing input
`meta = [DASH]`, `asset_pairs = [USDT_ETH, USDT_DASH]` over one day. -/
theorem absent_currency_not_fail_fast :
    (write_assets [("DASH", "Dash")] ["USDT_ETH", "USDT_DASH"]).1 =
      [("ETH", none), ("DASH", some "Dash")] ∧
    (write_assets [("DASH", "Dash")] ["USDT_ETH", "USDT_DASH"]).2 =
      [(0, "USDT_ETH"), (1, "USDT_DASH")] ∧
    (⟨"0_1970-01-01", "USDT_ETH", 0, 86399⟩ : FetchEvent) ∈
      (ingest [("DASH", "Dash")] (fun _ _ _ => []) ["USDT_ETH", "USDT_DASH"]
        0 86400 []).2.fetches := by
  refine ⟨by decide, by decide, by decide⟩

end ZiplinePoloniex
